import Mathlib

/-!
# Verification of the limit order book core (`src/orderbook`)

This file gives a shallow embedding in Lean 4 of the order book implemented in
`order_book.h` / `order_book.cpp`, and proves the specification claims about it.

Modelling conventions:
* `uint64_t` values are `Nat`s; arithmetic on the cached per-level
  `total_quantity_` (a `uint64_t` in the source) is performed modulo
  `U64MOD = 2 ^ 64` via `uadd` / `usub`.
* `double` prices are modelled as `Int`. The source compares prices only with
  `==` / `!=` / `<` and uses them as exact ordered map keys (the spec requires
  tick-aligned, exactly representable prices), so any linearly ordered type
  with decidable equality is a faithful model of the price key.
* `std::map<double, PriceLevelQueue, cmp>` is modelled as an association list
  `List (Int × PriceLevelQueue)` kept sorted by the comparator, exactly as the
  tree stores it; `operator[]` (get-or-create) becomes `mapInsertWith`.
* `std::unordered_map<uint64_t, OrderNode*>` is modelled as an association
  list `List (Nat × Nat)` from order id to node handle; hash-bucket layout is
  not observable through the operations the book performs on it.
* `OrderNode*` pointers are modelled as `Nat` slot handles produced by the
  pool; the heap cell behind a pointer lives in `MemoryPool.mem`, so reading
  or writing `node->order` becomes `MemoryPool.read` / `MemoryPool.write`.
  The pool's block chunking (blocks of 4096 slots) only affects raw addresses,
  never behaviour, so slot handles are modelled as a flat counter.
* `std::list<OrderNode*>` inside a price level is a `List Nat` of handles in
  FIFO order (front = oldest); erasing through the node's stored `list_iter`
  is modelled by `List.erase` of the handle, which agrees with the source
  because a live node is linked into exactly one queue exactly once (proved
  as part of the invariant below).
-/

/-- `2 ^ 64`, the modulus of `uint64_t` arithmetic. -/
def U64MOD : Nat := 2 ^ 64

/-- `uint64_t` addition (wrapping). -/
def uadd (a b : Nat) : Nat := (a + b) % U64MOD

/-- `uint64_t` subtraction (wrapping). -/
def usub (a b : Nat) : Nat := (a + (U64MOD - b % U64MOD)) % U64MOD

/-- The `Order` record of `order_book.h` (lines 13-22). -/
structure Order where
  order_id : Nat
  is_buy : Bool
  price : Int
  quantity : Nat
  timestamp_ns : Nat
deriving DecidableEq

/-- A `(price, total_quantity)` snapshot entry, the `PriceLevel` record of
`order_book.h` (lines 25-31). -/
structure PriceLevel where
  price : Int
  total_quantity : Nat
deriving DecidableEq

/-- `PriceLevelQueue` of `order_book.h` (lines 85-117): the FIFO of node
handles at one price plus the cached `total_quantity_`. -/
structure PriceLevelQueue where
  orders : List Nat
  total_quantity : Nat
deriving DecidableEq

/-- A default-constructed (empty) `PriceLevelQueue`. -/
def PriceLevelQueue.emptyQ : PriceLevelQueue := ⟨[], 0⟩

/-- `PriceLevelQueue::add_order`: append the node at the tail and add its
quantity to the cached total. `q` is the node's `order.quantity`, read through
the node pointer in the source. -/
def PriceLevelQueue.add_order (L : PriceLevelQueue) (h q : Nat) : PriceLevelQueue :=
  ⟨L.orders ++ [h], uadd L.total_quantity q⟩

/-- `PriceLevelQueue::remove_order`: subtract the node's quantity from the
cached total and unlink the node via its stored iterator. -/
def PriceLevelQueue.remove_order (L : PriceLevelQueue) (h q : Nat) : PriceLevelQueue :=
  ⟨L.orders.erase h, usub L.total_quantity q⟩

/-- `PriceLevelQueue::update_quantity`: adjust the cached total by
`new_qty - old_qty`; the FIFO is untouched. -/
def PriceLevelQueue.update_quantity (L : PriceLevelQueue) (oldq newq : Nat) : PriceLevelQueue :=
  ⟨L.orders, uadd (usub L.total_quantity oldq) newq⟩

/-- `PriceLevelQueue::is_empty`. -/
def PriceLevelQueue.is_empty (L : PriceLevelQueue) : Bool := L.orders.isEmpty

/-- Generic association-list lookup (first match), used for the heap of pool
slots and for `order_lookup_`. -/
def alistFind {α : Type} : List (Nat × α) → Nat → Option α
  | [], _ => none
  | (k, v) :: rest, key => if k = key then some v else alistFind rest key

/-- Remove the (unique) entry with the given key; models
`std::unordered_map::erase`. -/
def alistErase {α : Type} : List (Nat × α) → Nat → List (Nat × α)
  | [], _ => []
  | (k, v) :: rest, key => if k = key then rest else (k, v) :: alistErase rest key

/-- Overwrite the value stored under an existing key; models a write through
a pointer into the pool. A write to an unallocated key is a no-op (the book
never performs one on a reachable state). -/
def alistSet {α : Type} : List (Nat × α) → Nat → α → List (Nat × α)
  | [], _, _ => []
  | (k, v) :: rest, key, w => if k = key then (k, w) :: rest else (k, v) :: alistSet rest key w

/-- `MemoryPool<OrderNode, 4096>` of `order_book.h` (lines 34-74).
`mem` holds the contents of every constructed slot (handle ↦ the `Order`
inside the `OrderNode`), `next_slot` is the bump pointer: the source hands out
`&current_block_[current_slot_++]` and never recycles a destroyed slot
(`destroy` only invokes the destructor). -/
structure MemoryPool where
  mem : List (Nat × Order)
  next_slot : Nat
deriving DecidableEq

/-- A freshly constructed pool. -/
def MemoryPool.emptyP : MemoryPool := ⟨[], 0⟩

/-- `MemoryPool::construct`: bump-allocate the next slot and placement-new the
order into it; returns the new handle and the updated pool. -/
def MemoryPool.construct (P : MemoryPool) (o : Order) : Nat × MemoryPool :=
  (P.next_slot, ⟨(P.next_slot, o) :: P.mem, P.next_slot + 1⟩)

/-- `MemoryPool::destroy`: run the node's destructor (ending the stored
order's lifetime); the slot is not added to any free structure and the bump
pointer is untouched. -/
def MemoryPool.destroy (P : MemoryPool) (h : Nat) : MemoryPool :=
  ⟨alistErase P.mem h, P.next_slot⟩

/-- Read `node->order` through a pool handle. Reading a dead or unallocated
slot is undefined behaviour in the source; the model returns a junk order. -/
def MemoryPool.read (P : MemoryPool) (h : Nat) : Order :=
  (alistFind P.mem h).getD ⟨0, true, 0, 0, 0⟩

/-- Write `node->order` through a pool handle. -/
def MemoryPool.write (P : MemoryPool) (h : Nat) (o : Order) : MemoryPool :=
  ⟨alistSet P.mem h o, P.next_slot⟩

/-- The comparator of the bid side, `std::greater<double>`: `cmpGT a b` iff
`a` sorts strictly before `b` (higher price first). -/
def cmpGT (a b : Int) : Bool := decide (b < a)

/-- The comparator of the ask side, `std::less<double>`: lower price first. -/
def cmpLT (a b : Int) : Bool := decide (a < b)

/-- `side[price]` followed by a mutation of the found-or-created level:
models `auto& level = side_[price]; level.f(...)` on a `std::map` sorted by
`cmp`. Inserts a default-constructed level at the comparator-determined
position when the price is absent. -/
def mapInsertWith (cmp : Int → Int → Bool) (f : PriceLevelQueue → PriceLevelQueue) (p : Int) :
    List (Int × PriceLevelQueue) → List (Int × PriceLevelQueue)
  | [] => [(p, f PriceLevelQueue.emptyQ)]
  | (k, L) :: rest =>
    if cmp p k then (p, f PriceLevelQueue.emptyQ) :: (k, L) :: rest
    else if p = k then (p, f L) :: rest
    else (k, L) :: mapInsertWith cmp f p rest

/-- `side_.find(price)` on the sorted map. -/
def mapFind : List (Int × PriceLevelQueue) → Int → Option PriceLevelQueue
  | [], _ => none
  | (k, L) :: rest, p => if k = p then some L else mapFind rest p

/-- `OrderBook::remove_from_side` restricted to one side: find the level at
`p`; if present remove the node (handle `h`, quantity `q`) from it and erase
the level when it becomes empty (order_book.cpp lines 178-204). -/
def sideRemove (p : Int) (h q : Nat) : List (Int × PriceLevelQueue) → List (Int × PriceLevelQueue)
  | [] => []
  | (k, L) :: rest =>
    if k = p then
      let L2 := L.remove_order h q
      if L2.orders.isEmpty then rest else (k, L2) :: rest
    else (k, L) :: sideRemove p h q rest

/-- The quantity-only amend path on one side: find the level at `p` and call
its `update_quantity` (order_book.cpp lines 78-96). -/
def sideUpdateQty (p : Int) (oldq newq : Nat) : List (Int × PriceLevelQueue) → List (Int × PriceLevelQueue)
  | [] => []
  | (k, L) :: rest =>
    if k = p then (k, L.update_quantity oldq newq) :: rest
    else (k, L) :: sideUpdateQty p oldq newq rest

/-- The `OrderBook` state of `order_book.h` (lines 119-155): the two sorted
side indices, the id → handle lookup, and the node pool. -/
structure OrderBook where
  bids : List (Int × PriceLevelQueue)
  asks : List (Int × PriceLevelQueue)
  order_lookup : List (Nat × Nat)
  pool : MemoryPool
deriving DecidableEq

/-- A default-constructed (empty) book. -/
def OrderBook.emptyB : OrderBook := ⟨[], [], [], MemoryPool.emptyP⟩

/-- Select a side index by `is_buy`. -/
def OrderBook.sideFor (B : OrderBook) (buy : Bool) : List (Int × PriceLevelQueue) :=
  if buy then B.bids else B.asks

/-- `OrderBook::add_to_side` (order_book.cpp lines 164-176). `o` is the
current contents of `node->order` (read through the handle in the source). -/
def OrderBook.add_to_side (B : OrderBook) (h : Nat) (o : Order) : OrderBook :=
  if o.is_buy then
    { B with bids := mapInsertWith cmpGT (fun L => L.add_order h o.quantity) o.price B.bids }
  else
    { B with asks := mapInsertWith cmpLT (fun L => L.add_order h o.quantity) o.price B.asks }

/-- `OrderBook::remove_from_side` (order_book.cpp lines 178-204). -/
def OrderBook.remove_from_side (B : OrderBook) (h : Nat) (o : Order) : OrderBook :=
  if o.is_buy then { B with bids := sideRemove o.price h o.quantity B.bids }
  else { B with asks := sideRemove o.price h o.quantity B.asks }

/-- `OrderBook::add_order` (order_book.cpp lines 17-31): drop duplicates
silently, otherwise construct a node in the pool, link it into its side and
record it in the lookup. -/
def OrderBook.add_order (B : OrderBook) (o : Order) : OrderBook :=
  if (alistFind B.order_lookup o.order_id).isSome then B
  else
    let c := B.pool.construct o
    let B1 : OrderBook := { B with pool := c.2 }
    let B2 := B1.add_to_side c.1 o
    { B2 with order_lookup := B2.order_lookup ++ [(o.order_id, c.1)] }

/-- `OrderBook::cancel_order` (order_book.cpp lines 33-51). -/
def OrderBook.cancel_order (B : OrderBook) (order_id : Nat) : Bool × OrderBook :=
  match alistFind B.order_lookup order_id with
  | none => (false, B)
  | some h =>
    let o := B.pool.read h
    let B1 := B.remove_from_side h o
    let B2 : OrderBook := { B1 with order_lookup := alistErase B1.order_lookup order_id }
    let B3 : OrderBook := { B2 with pool := B2.pool.destroy h }
    (true, B3)

/-- `OrderBook::amend_order` (order_book.cpp lines 53-100): a price change is
remove + overwrite + re-append (time priority forfeited); a pure quantity
change updates the level's cached total in place; otherwise a no-op returning
`true`. -/
def OrderBook.amend_order (B : OrderBook) (order_id : Nat) (new_price : Int) (new_quantity : Nat) :
    Bool × OrderBook :=
  match alistFind B.order_lookup order_id with
  | none => (false, B)
  | some h =>
    let o := B.pool.read h
    if o.price ≠ new_price then
      let B1 := B.remove_from_side h o
      let o2 : Order := { o with price := new_price, quantity := new_quantity }
      let B2 : OrderBook := { B1 with pool := B1.pool.write h o2 }
      let B3 := B2.add_to_side h o2
      (true, B3)
    else if o.quantity ≠ new_quantity then
      if o.is_buy then
        match mapFind B.bids o.price with
        | some _ =>
          let o2 : Order := { o with quantity := new_quantity }
          let B1 : OrderBook := { B with pool := B.pool.write h o2 }
          let B2 : OrderBook := { B1 with bids := sideUpdateQty o.price o.quantity new_quantity B1.bids }
          (true, B2)
        | none => (true, B)
      else
        match mapFind B.asks o.price with
        | some _ =>
          let o2 : Order := { o with quantity := new_quantity }
          let B1 : OrderBook := { B with pool := B.pool.write h o2 }
          let B2 : OrderBook := { B1 with asks := sideUpdateQty o.price o.quantity new_quantity B1.asks }
          (true, B2)
        | none => (true, B)
    else (true, B)

/-- `OrderBook::get_snapshot` (order_book.cpp lines 102-126): clear both
output vectors and fill them with the first `depth` levels of each side in the
side index's iteration order. The outputs are returned (the caller-provided
vectors are cleared at entry, so the result never depends on their previous
contents). -/
def OrderBook.get_snapshot (B : OrderBook) (depth : Nat) : List PriceLevel × List PriceLevel :=
  ((B.bids.take depth).map (fun e => ⟨e.1, e.2.total_quantity⟩),
   (B.asks.take depth).map (fun e => ⟨e.1, e.2.total_quantity⟩))

/-- `OrderBook::get_order_count`: the size of `order_lookup_`. -/
def OrderBook.get_order_count (B : OrderBook) : Nat := B.order_lookup.length

/-- The states reachable from a default-constructed book by the three mutating
operations. The quantity arguments are `uint64_t` in the source, hence
`< U64MOD`. -/
inductive Reachable : OrderBook → Prop where
  | empty : Reachable OrderBook.emptyB
  | add {B : OrderBook} (o : Order) : Reachable B → o.quantity < U64MOD →
      Reachable (B.add_order o)
  | cancel {B : OrderBook} (order_id : Nat) : Reachable B →
      Reachable (B.cancel_order order_id).2
  | amend {B : OrderBook} (order_id : Nat) (new_price : Int) (new_quantity : Nat) :
      Reachable B → new_quantity < U64MOD →
      Reachable (B.amend_order order_id new_price new_quantity).2

/-- All node handles linked into the levels of one side, in iteration order. -/
def sideHandles (side : List (Int × PriceLevelQueue)) : List Nat :=
  (side.map (fun e => e.2.orders)).flatten

/-- All node handles linked anywhere in the book. -/
def allHandles (B : OrderBook) : List Nat := sideHandles B.bids ++ sideHandles B.asks

/-- The exact sum of the quantities of the nodes currently linked into a
level, read through the pool. -/
def levelSum (P : MemoryPool) (L : PriceLevelQueue) : Nat :=
  (L.orders.map (fun h => (P.read h).quantity)).sum

/-! ## Arithmetic lemmas about the wrapping `uint64_t` operations -/

theorem U64MOD_eq : U64MOD = 18446744073709551616 := by norm_num [U64MOD]

theorem U64MOD_pos : 0 < U64MOD := by rw [U64MOD_eq]; omega

theorem uadd_lt (a b : Nat) : uadd a b < U64MOD :=
  Nat.mod_lt _ U64MOD_pos

theorem usub_lt (a b : Nat) : usub a b < U64MOD :=
  Nat.mod_lt _ U64MOD_pos

theorem uadd_mod_left (a b : Nat) : uadd (a % U64MOD) b = (a + b) % U64MOD := by
  unfold uadd; rw [U64MOD_eq]; omega

theorem usub_uadd_cancel (t q : Nat) : usub (uadd t q) q = t % U64MOD := by
  unfold uadd usub; rw [U64MOD_eq]; omega

theorem usub_mod_left (a b : Nat) (hba : b ≤ a) :
    usub (a % U64MOD) b = (a - b) % U64MOD := by
  unfold usub; rw [U64MOD_eq] at *; omega

theorem update_total_eq (sum oldq newq : Nat) (hle : oldq ≤ sum) :
    uadd (usub (sum % U64MOD) oldq) newq = (sum - oldq + newq) % U64MOD := by
  unfold uadd usub; rw [U64MOD_eq] at *; omega

theorem update_total_delta (T oldq q : Nat) :
    (uadd (usub T oldq) q + oldq) % U64MOD = (T + q) % U64MOD := by
  unfold uadd usub; rw [U64MOD_eq] at *; omega

/-! ## Association-list lemmas -/

theorem alistFind_eq_none {α : Type} {l : List (Nat × α)} {k : Nat} :
    alistFind l k = none ↔ ∀ e ∈ l, e.1 ≠ k := by
  induction l with
  | nil => simp [alistFind]
  | cons e rest ih =>
    obtain ⟨a, v⟩ := e
    by_cases hak : a = k <;> simp [alistFind, hak, ih]

theorem alistFind_some_mem {α : Type} {l : List (Nat × α)} {k : Nat} {v : α}
    (h : alistFind l k = some v) : (k, v) ∈ l := by
  induction l with
  | nil => simp [alistFind] at h
  | cons e rest ih =>
    obtain ⟨a, w⟩ := e
    by_cases hak : a = k
    · subst hak
      simp [alistFind] at h
      simp [h]
    · simp [alistFind, hak] at h
      exact List.mem_cons_of_mem _ (ih h)

theorem alistFind_isSome_iff {α : Type} {l : List (Nat × α)} {k : Nat} :
    (alistFind l k).isSome ↔ ∃ v, (k, v) ∈ l := by
  constructor
  · intro h
    obtain ⟨v, hv⟩ := Option.isSome_iff_exists.mp h
    exact ⟨v, alistFind_some_mem hv⟩
  · intro ⟨v, hv⟩
    cases hfind : alistFind l k with
    | some w => simp
    | none =>
      exact absurd rfl ((alistFind_eq_none.mp hfind) _ hv)

theorem alistFind_append_fresh {α : Type} {l : List (Nat × α)} {k : Nat} {v : α}
    (h : ∀ e ∈ l, e.1 ≠ k) : alistFind (l ++ [(k, v)]) k = some v := by
  induction l with
  | nil => simp [alistFind]
  | cons e rest ih =>
    obtain ⟨a, w⟩ := e
    have hak : a ≠ k := h (a, w) (List.mem_cons_self _ _)
    simp only [List.cons_append, alistFind, hak, if_false]
    exact ih fun e he => h e (List.mem_cons_of_mem _ he)

theorem alistFind_append_ne {α : Type} {l : List (Nat × α)} {k g : Nat} {v : α}
    (h : g ≠ k) : alistFind (l ++ [(k, v)]) g = alistFind l g := by
  induction l with
  | nil => simp [alistFind, Ne.symm h]
  | cons e rest ih =>
    obtain ⟨a, w⟩ := e
    by_cases hag : a = g <;> simp [alistFind, hag, ih]

theorem alistErase_append_fresh {α : Type} {l : List (Nat × α)} {k : Nat} {v : α}
    (h : ∀ e ∈ l, e.1 ≠ k) : alistErase (l ++ [(k, v)]) k = l := by
  induction l with
  | nil => simp [alistErase]
  | cons e rest ih =>
    obtain ⟨a, w⟩ := e
    have hak : a ≠ k := h (a, w) (List.mem_cons_self _ _)
    simp only [List.cons_append, alistErase, hak, if_false, List.cons.injEq, true_and]
    exact ih fun e he => h e (List.mem_cons_of_mem _ he)

theorem alistErase_sublist {α : Type} (l : List (Nat × α)) (k : Nat) :
    (alistErase l k).Sublist l := by
  induction l with
  | nil => simp [alistErase]
  | cons e rest ih =>
    obtain ⟨a, w⟩ := e
    by_cases hak : a = k
    · simp [alistErase, hak]
    · simpa [alistErase, hak] using ih.cons₂ (a, w)

theorem mem_alistErase_of_ne {α : Type} {l : List (Nat × α)} {k : Nat} {e : Nat × α}
    (he : e ∈ l) (hne : e.1 ≠ k) : e ∈ alistErase l k := by
  induction l with
  | nil => simp at he
  | cons a rest ih =>
    obtain ⟨b, w⟩ := a
    rcases List.mem_cons.mp he with h1 | h2
    · subst h1
      simp [alistErase, hne]
    · by_cases hbk : b = k
      · simpa [alistErase, hbk] using h2
      · simpa [alistErase, hbk] using Or.inr (ih h2)

theorem alistFind_alistErase_ne {α : Type} {l : List (Nat × α)} {k g : Nat}
    (h : g ≠ k) : alistFind (alistErase l k) g = alistFind l g := by
  induction l with
  | nil => simp [alistErase]
  | cons e rest ih =>
    obtain ⟨a, w⟩ := e
    by_cases hak : a = k
    · subst hak
      simp [alistErase, alistFind, Ne.symm h]
    · by_cases hag : a = g <;> simp [alistErase, alistFind, hak, hag, h, ih]

theorem not_mem_alistErase {α : Type} {l : List (Nat × α)} {k : Nat} {v : α}
    (hnd : (l.map Prod.fst).Nodup) : (k, v) ∉ alistErase l k := by
  induction l with
  | nil => simp [alistErase]
  | cons e rest ih =>
    obtain ⟨a, w⟩ := e
    simp only [List.map_cons, List.nodup_cons] at hnd
    by_cases hak : a = k
    · subst hak
      simp only [alistErase, if_pos rfl]
      intro hmem
      exact hnd.1 (List.mem_map.mpr ⟨(a, v), hmem, rfl⟩)
    · simp only [alistErase, hak, if_false, List.mem_cons]
      rintro (h1 | h2)
      · simp [Prod.ext_iff] at h1
        exact hak h1.1.symm
      · exact ih hnd.2 h2

theorem alistSet_map_fst {α : Type} (l : List (Nat × α)) (k : Nat) (w : α) :
    (alistSet l k w).map Prod.fst = l.map Prod.fst := by
  induction l with
  | nil => simp [alistSet]
  | cons e rest ih =>
    obtain ⟨a, v⟩ := e
    by_cases hak : a = k <;> simp [alistSet, hak, ih]

theorem alistFind_alistSet_self {α : Type} {l : List (Nat × α)} {k : Nat} {w : α}
    (h : (alistFind l k).isSome) : alistFind (alistSet l k w) k = some w := by
  induction l with
  | nil => simp [alistFind] at h
  | cons e rest ih =>
    obtain ⟨a, v⟩ := e
    by_cases hak : a = k
    · simp [alistSet, alistFind, hak]
    · simp only [alistFind, hak, if_false] at h
      simp [alistSet, alistFind, hak, ih h]

theorem alistFind_alistSet_ne {α : Type} {l : List (Nat × α)} {k g : Nat} {w : α}
    (h : g ≠ k) : alistFind (alistSet l k w) g = alistFind l g := by
  induction l with
  | nil => simp [alistSet]
  | cons e rest ih =>
    obtain ⟨a, v⟩ := e
    by_cases hak : a = k
    · subst hak
      simp [alistSet, alistFind, Ne.symm h]
    · by_cases hag : a = g <;> simp [alistSet, alistFind, hak, hag, h, ih]

/-! ## Pool read/write lemmas -/

theorem MemoryPool.read_construct_self (P : MemoryPool) (o : Order) :
    (P.construct o).2.read (P.construct o).1 = o := by
  simp [MemoryPool.construct, MemoryPool.read, alistFind]

theorem MemoryPool.read_construct_ne (P : MemoryPool) (o : Order) {g : Nat}
    (h : g ≠ P.next_slot) : (P.construct o).2.read g = P.read g := by
  simp [MemoryPool.construct, MemoryPool.read, alistFind, Ne.symm h]

theorem MemoryPool.read_write_self (P : MemoryPool) (h : Nat) (o : Order)
    (halloc : (alistFind P.mem h).isSome) : (P.write h o).read h = o := by
  simp [MemoryPool.write, MemoryPool.read, alistFind_alistSet_self halloc]

theorem MemoryPool.read_write_ne (P : MemoryPool) (h : Nat) (o : Order) {g : Nat}
    (hg : g ≠ h) : (P.write h o).read g = P.read g := by
  simp [MemoryPool.write, MemoryPool.read, alistFind_alistSet_ne hg]

theorem MemoryPool.read_destroy_ne (P : MemoryPool) (h : Nat) {g : Nat}
    (hg : g ≠ h) : (P.destroy h).read g = P.read g := by
  simp [MemoryPool.destroy, MemoryPool.read, alistFind_alistErase_ne hg]

theorem MemoryPool.write_mem_fst (P : MemoryPool) (h : Nat) (o : Order) :
    (P.write h o).mem.map Prod.fst = P.mem.map Prod.fst := by
  simp [MemoryPool.write, alistSet_map_fst]

/-! ## Comparator laws for the two side orderings -/

/-- The properties of a strict-weak-order comparator that the sorted-map
lemmas rely on (satisfied by `std::greater` and `std::less` on exact keys). -/
structure LawfulCmp (cmp : Int → Int → Bool) : Prop where
  irrefl : ∀ a, cmp a a = false
  trans : ∀ a b c, cmp a b = true → cmp b c = true → cmp a c = true
  total : ∀ a b, a ≠ b → cmp a b = true ∨ cmp b a = true

theorem lawful_cmpGT : LawfulCmp cmpGT := by
  refine ⟨?_, ?_, ?_⟩
  · intro a; simp [cmpGT]
  · intro a b c hab hbc
    simp only [cmpGT, decide_eq_true_eq] at *
    omega
  · intro a b hne
    simp only [cmpGT, decide_eq_true_eq]
    omega

theorem lawful_cmpLT : LawfulCmp cmpLT := by
  refine ⟨?_, ?_, ?_⟩
  · intro a; simp [cmpLT]
  · intro a b c hab hbc
    simp only [cmpLT, decide_eq_true_eq] at *
    omega
  · intro a b hne
    simp only [cmpLT, decide_eq_true_eq]
    omega

/-- Sortedness of a side index: every key sorts strictly before every later
key under the side's comparator. -/
def SideSorted (cmp : Int → Int → Bool) (side : List (Int × PriceLevelQueue)) : Prop :=
  side.Pairwise (fun a b => cmp a.1 b.1 = true)

theorem SideSorted.keys_ne {cmp : Int → Int → Bool} (hl : LawfulCmp cmp)
    {side : List (Int × PriceLevelQueue)} (hs : SideSorted cmp side)
    {k : Int} {L : PriceLevelQueue} {rest : List (Int × PriceLevelQueue)}
    (hside : side = (k, L) :: rest) : ∀ e ∈ rest, e.1 ≠ k := by
  subst hside
  intro e he heq
  have := (List.pairwise_cons.mp hs).1 e he
  rw [heq] at this
  rw [hl.irrefl] at this
  exact Bool.false_ne_true this

/-! ## Lemmas about the sorted side maps -/

/-- The level stored at `p`, or a default-constructed one — the level that
`side_[price]` mutates. -/
def levelAtD (side : List (Int × PriceLevelQueue)) (p : Int) : PriceLevelQueue :=
  (mapFind side p).getD PriceLevelQueue.emptyQ

theorem mapFind_mem {side : List (Int × PriceLevelQueue)} {p : Int} {L : PriceLevelQueue}
    (h : mapFind side p = some L) : (p, L) ∈ side := by
  induction side with
  | nil => simp [mapFind] at h
  | cons e rest ih =>
    obtain ⟨k, M⟩ := e
    by_cases hk : k = p
    · subst hk
      simp [mapFind] at h
      simp [h]
    · simp only [mapFind, hk, if_false] at h
      exact List.mem_cons_of_mem _ (ih h)

theorem mapFind_eq_none_iff {side : List (Int × PriceLevelQueue)} {p : Int} :
    mapFind side p = none ↔ ∀ e ∈ side, e.1 ≠ p := by
  induction side with
  | nil => simp [mapFind]
  | cons e rest ih =>
    obtain ⟨k, M⟩ := e
    by_cases hk : k = p <;> simp [mapFind, hk, ih]

theorem mapFind_isSome_iff {side : List (Int × PriceLevelQueue)} {p : Int} :
    (mapFind side p).isSome ↔ ∃ L, (p, L) ∈ side := by
  constructor
  · intro h
    obtain ⟨L, hL⟩ := Option.isSome_iff_exists.mp h
    exact ⟨L, mapFind_mem hL⟩
  · intro ⟨L, hL⟩
    cases hfind : mapFind side p with
    | some M => simp
    | none => exact absurd rfl (mapFind_eq_none_iff.mp hfind _ hL)

/-- On a sorted side, a `some` answer from `find` means the key heads no other
entry. -/
theorem mapFind_unique {cmp : Int → Int → Bool} (hl : LawfulCmp cmp)
    {side : List (Int × PriceLevelQueue)} (hs : SideSorted cmp side)
    {p : Int} {L M : PriceLevelQueue} (hL : (p, L) ∈ side) (hM : (p, M) ∈ side) : L = M := by
  induction side with
  | nil => simp at hL
  | cons e rest ih =>
    obtain ⟨k, N⟩ := e
    have hk : ∀ x ∈ rest, x.1 ≠ k := SideSorted.keys_ne hl hs rfl
    rcases List.mem_cons.mp hL with h1 | h1 <;> rcases List.mem_cons.mp hM with h2 | h2
    · rw [Prod.ext_iff] at h1 h2
      exact h1.2.trans h2.2.symm
    · exfalso
      rw [Prod.ext_iff] at h1
      exact hk _ h2 (h1.1 ▸ rfl)
    · exfalso
      rw [Prod.ext_iff] at h2
      exact hk _ h1 (h2.1 ▸ rfl)
    · exact ih (List.pairwise_cons.mp hs).2 h1 h2

theorem mapFind_eq_some_of_mem {cmp : Int → Int → Bool} (hl : LawfulCmp cmp)
    {side : List (Int × PriceLevelQueue)} (hs : SideSorted cmp side)
    {p : Int} {L : PriceLevelQueue} (hL : (p, L) ∈ side) : mapFind side p = some L := by
  cases hfind : mapFind side p with
  | none => exact absurd rfl (mapFind_eq_none_iff.mp hfind _ hL)
  | some M => exact congrArg some (mapFind_unique hl hs (mapFind_mem hfind) hL)

theorem mapInsertWith_keys_sub {cmp : Int → Int → Bool} {f : PriceLevelQueue → PriceLevelQueue}
    {p : Int} {side : List (Int × PriceLevelQueue)} :
    ∀ e ∈ mapInsertWith cmp f p side, e.1 = p ∨ e.1 ∈ side.map Prod.fst := by
  induction side with
  | nil =>
    intro e he
    simp [mapInsertWith] at he
    simp [he]
  | cons a rest ih =>
    obtain ⟨k, L⟩ := a
    intro e he
    by_cases h1 : cmp p k
    · simp only [mapInsertWith, h1, if_true] at he
      rcases List.mem_cons.mp he with h | h
      · simp [h]
      · rcases List.mem_cons.mp h with h2 | h2
        · simp [h2]
        · simp only [List.map_cons, List.mem_cons]
          exact Or.inr (Or.inr (List.mem_map.mpr ⟨e, h2, rfl⟩))
    · by_cases h2 : p = k
      · simp only [mapInsertWith, h1, Bool.false_eq_true, if_false, if_pos h2] at he
        rcases List.mem_cons.mp he with h | h
        · simp [h]
        · simp only [List.map_cons, List.mem_cons]
          exact Or.inr (Or.inr (List.mem_map.mpr ⟨e, h, rfl⟩))
      · simp only [mapInsertWith, h1, Bool.false_eq_true, if_false, h2, if_false] at he
        rcases List.mem_cons.mp he with h | h
        · simp [h]
        · rcases ih e h with h3 | h3
          · exact Or.inl h3
          · simp only [List.map_cons, List.mem_cons]
            exact Or.inr (Or.inr h3)

theorem mapInsertWith_sorted {cmp : Int → Int → Bool} (hl : LawfulCmp cmp)
    {f : PriceLevelQueue → PriceLevelQueue} {p : Int} {side : List (Int × PriceLevelQueue)}
    (hs : SideSorted cmp side) : SideSorted cmp (mapInsertWith cmp f p side) := by
  induction side with
  | nil => simp [mapInsertWith, SideSorted]
  | cons a rest ih =>
    obtain ⟨k, L⟩ := a
    obtain ⟨hk, hrest⟩ := List.pairwise_cons.mp hs
    by_cases h1 : cmp p k
    · simp only [mapInsertWith, h1, if_true]
      refine List.pairwise_cons.mpr ⟨?_, hs⟩
      intro e he
      rcases List.mem_cons.mp he with h | h
      · rw [h]
        exact h1
      · exact hl.trans _ _ _ h1 (hk e h)
    · by_cases h2 : p = k
      · subst h2
        simp only [mapInsertWith, h1, Bool.false_eq_true, if_false, if_pos rfl]
        exact List.pairwise_cons.mpr ⟨hk, hrest⟩
      · simp only [mapInsertWith, h1, Bool.false_eq_true, if_false, h2, if_false]
        refine List.pairwise_cons.mpr ⟨?_, ih hrest⟩
        intro e he
        rcases mapInsertWith_keys_sub e he with h | h
        · show cmp k e.1 = true
          rw [h]
          rcases hl.total p k h2 with h3 | h3
          · exact absurd h3 (by simp [h1])
          · exact h3
        · obtain ⟨x, hx, hxe⟩ := List.mem_map.mp h
          exact hxe ▸ hk x hx

/-- On a sorted side, a key that sorts before the head is absent. -/
theorem mapFind_none_of_cmp_head {cmp : Int → Int → Bool} (hl : LawfulCmp cmp)
    {k p : Int} {L : PriceLevelQueue} {rest : List (Int × PriceLevelQueue)}
    (hs : SideSorted cmp ((k, L) :: rest)) (hp : cmp p k = true) :
    mapFind ((k, L) :: rest) p = none := by
  rw [mapFind_eq_none_iff]
  intro e he
  rcases List.mem_cons.mp he with h | h
  · intro heq
    rw [h] at heq
    simp only at heq
    rw [heq] at hp
    rw [hl.irrefl] at hp
    exact Bool.false_ne_true hp
  · intro heq
    have h2 := (List.pairwise_cons.mp hs).1 e h
    rw [heq] at h2
    have := hl.trans _ _ _ hp h2
    rw [hl.irrefl] at this
    exact Bool.false_ne_true this

theorem mapInsertWith_find_self {cmp : Int → Int → Bool} (hl : LawfulCmp cmp)
    {f : PriceLevelQueue → PriceLevelQueue} {p : Int} {side : List (Int × PriceLevelQueue)}
    (hs : SideSorted cmp side) :
    mapFind (mapInsertWith cmp f p side) p = some (f (levelAtD side p)) := by
  induction side with
  | nil => simp [mapInsertWith, mapFind, levelAtD]
  | cons a rest ih =>
    obtain ⟨k, L⟩ := a
    by_cases h1 : cmp p k
    · have hnone := mapFind_none_of_cmp_head hl hs h1
      simp only [mapInsertWith, h1, if_true]
      unfold levelAtD
      rw [hnone]
      simp [mapFind]
    · by_cases h2 : p = k
      · simp only [mapInsertWith, h1, Bool.false_eq_true, if_false, if_pos h2]
        simp [mapFind, levelAtD, h2]
      · have hkp : k ≠ p := Ne.symm h2
        simp only [mapInsertWith, h1, Bool.false_eq_true, if_false, h2, if_false]
        have : levelAtD ((k, L) :: rest) p = levelAtD rest p := by
          simp [levelAtD, mapFind, hkp]
        rw [this]
        simp only [mapFind, hkp, if_false]
        exact ih (List.pairwise_cons.mp hs).2

theorem mapInsertWith_find_ne {cmp : Int → Int → Bool}
    {f : PriceLevelQueue → PriceLevelQueue} {p r : Int} {side : List (Int × PriceLevelQueue)}
    (hr : r ≠ p) : mapFind (mapInsertWith cmp f p side) r = mapFind side r := by
  induction side with
  | nil => simp [mapInsertWith, mapFind, Ne.symm hr]
  | cons a rest ih =>
    obtain ⟨k, L⟩ := a
    by_cases h1 : cmp p k
    · simp [mapInsertWith, h1, mapFind, Ne.symm hr]
    · by_cases h2 : p = k
      · subst h2
        simp [mapInsertWith, h1, mapFind, Ne.symm hr]
      · by_cases h3 : k = r
        · subst h3
          simp [mapInsertWith, h1, h2, mapFind]
        · simp [mapInsertWith, h1, h2, mapFind, h3, ih]

theorem mapInsertWith_mem_char {cmp : Int → Int → Bool} (hl : LawfulCmp cmp)
    {f : PriceLevelQueue → PriceLevelQueue} {p : Int} {side : List (Int × PriceLevelQueue)}
    (hs : SideSorted cmp side) {r : Int} {M : PriceLevelQueue} :
    (r, M) ∈ mapInsertWith cmp f p side ↔
      ((r, M) ∈ side ∧ r ≠ p) ∨ (r = p ∧ M = f (levelAtD side p)) := by
  constructor
  · intro hmem
    by_cases hr : r = p
    · subst hr
      refine Or.inr ⟨rfl, ?_⟩
      have hfind := @mapInsertWith_find_self cmp hl f r side hs
      have hsorted := @mapInsertWith_sorted cmp hl f r side hs
      have := mapFind_eq_some_of_mem hl hsorted hmem
      rw [hfind] at this
      exact (Option.some.injEq _ _).mp this.symm
    · refine Or.inl ⟨?_, hr⟩
      have hfind := @mapInsertWith_find_ne cmp f p r side hr
      have hsorted := @mapInsertWith_sorted cmp hl f p side hs
      have := mapFind_eq_some_of_mem hl hsorted hmem
      rw [hfind] at this
      exact mapFind_mem this
  · rintro (⟨hmem, hr⟩ | ⟨hr, hM⟩)
    · have hfind := mapFind_eq_some_of_mem hl hs hmem
      have : mapFind (mapInsertWith cmp f p side) r = some M := by
        rw [mapInsertWith_find_ne hr, hfind]
      exact mapFind_mem this
    · subst hr hM
      exact mapFind_mem (mapInsertWith_find_self hl hs)

theorem sideHandles_insert_count {cmp : Int → Int → Bool} {p : Int} {h q : Nat}
    {side : List (Int × PriceLevelQueue)} (g : Nat) :
    (sideHandles (mapInsertWith cmp (fun L => L.add_order h q) p side)).count g =
      (sideHandles side).count g + (if h = g then 1 else 0) := by
  induction side with
  | nil =>
    simp [mapInsertWith, sideHandles, PriceLevelQueue.add_order, PriceLevelQueue.emptyQ,
      List.count_cons, List.count_nil]
  | cons a rest ih =>
    obtain ⟨k, L⟩ := a
    by_cases h1 : cmp p k
    · simp only [mapInsertWith, h1, if_true, sideHandles, List.map_cons, List.flatten_cons,
        PriceLevelQueue.add_order, PriceLevelQueue.emptyQ, List.count_append, List.nil_append]
      simp only [sideHandles] at *
      simp [List.count_cons]
      omega
    · by_cases h2 : p = k
      · simp only [mapInsertWith, h1, Bool.false_eq_true, if_false, if_pos h2, sideHandles,
          List.map_cons, List.flatten_cons, PriceLevelQueue.add_order, List.count_append]
        simp [List.count_cons]
        omega
      · simp only [mapInsertWith, h1, Bool.false_eq_true, if_false, h2, if_false, sideHandles,
          List.map_cons, List.flatten_cons, List.count_append]
        simp only [sideHandles] at ih
        omega

theorem sideRemove_of_none {p : Int} {h q : Nat} {side : List (Int × PriceLevelQueue)}
    (hnone : mapFind side p = none) : sideRemove p h q side = side := by
  induction side with
  | nil => simp [sideRemove]
  | cons a rest ih =>
    obtain ⟨k, L⟩ := a
    by_cases hk : k = p
    · simp [mapFind, hk] at hnone
    · simp only [mapFind, hk, if_false] at hnone
      simp [sideRemove, hk, ih hnone]

theorem sideRemove_keys_sub {p : Int} {h q : Nat} {side : List (Int × PriceLevelQueue)} :
    ∀ e ∈ sideRemove p h q side, e.1 ∈ side.map Prod.fst := by
  induction side with
  | nil => simp [sideRemove]
  | cons a rest ih =>
    obtain ⟨k, L⟩ := a
    intro e he
    by_cases hk : k = p
    · simp only [sideRemove, if_pos hk] at he
      by_cases hemp : (L.remove_order h q).orders.isEmpty
      · simp only [hemp, if_true] at he
        simp only [List.map_cons, List.mem_cons]
        exact Or.inr (List.mem_map.mpr ⟨e, he, rfl⟩)
      · simp only [hemp, if_false] at he
        rcases List.mem_cons.mp he with h1 | h1
        · simp [h1]
        · simp only [List.map_cons, List.mem_cons]
          exact Or.inr (List.mem_map.mpr ⟨e, h1, rfl⟩)
    · simp only [sideRemove, hk, if_false] at he
      rcases List.mem_cons.mp he with h1 | h1
      · simp [h1]
      · simp only [List.map_cons, List.mem_cons]
        exact Or.inr (ih e h1)

theorem sideRemove_sorted {cmp : Int → Int → Bool}
    {p : Int} {h q : Nat} {side : List (Int × PriceLevelQueue)}
    (hs : SideSorted cmp side) : SideSorted cmp (sideRemove p h q side) := by
  induction side with
  | nil => simpa [sideRemove] using hs
  | cons a rest ih =>
    obtain ⟨k, L⟩ := a
    obtain ⟨hk, hrest⟩ := List.pairwise_cons.mp hs
    by_cases hkp : k = p
    · simp only [sideRemove, if_pos hkp]
      by_cases hemp : (L.remove_order h q).orders.isEmpty
      · simpa [hemp] using hrest
      · simp only [hemp, if_false]
        exact List.pairwise_cons.mpr ⟨hk, hrest⟩
    · simp only [sideRemove, hkp, if_false]
      refine List.pairwise_cons.mpr ⟨?_, ih hrest⟩
      intro e he
      obtain ⟨x, hx, hxe⟩ := List.mem_map.mp (sideRemove_keys_sub e he)
      exact hxe ▸ hk x hx

theorem sideRemove_find_ne {p r : Int} {h q : Nat} {side : List (Int × PriceLevelQueue)}
    (hr : r ≠ p) : mapFind (sideRemove p h q side) r = mapFind side r := by
  induction side with
  | nil => simp [sideRemove]
  | cons a rest ih =>
    obtain ⟨k, L⟩ := a
    by_cases hk : k = p
    · subst hk
      by_cases hemp : (L.remove_order h q).orders.isEmpty
      · simp [sideRemove, hemp, mapFind, Ne.symm hr]
      · simp [sideRemove, hemp, mapFind, Ne.symm hr]
    · by_cases hkr : k = r
      · subst hkr
        simp [sideRemove, hk, mapFind]
      · simp [sideRemove, hk, mapFind, hkr, ih]

theorem sideRemove_find_self {cmp : Int → Int → Bool} (hl : LawfulCmp cmp)
    {p : Int} {h q : Nat} {side : List (Int × PriceLevelQueue)} {L : PriceLevelQueue}
    (hs : SideSorted cmp side) (hfind : mapFind side p = some L) :
    mapFind (sideRemove p h q side) p =
      if (L.orders.erase h).isEmpty then none else some (L.remove_order h q) := by
  induction side with
  | nil => simp [mapFind] at hfind
  | cons a rest ih =>
    obtain ⟨k, M⟩ := a
    by_cases hk : k = p
    · subst hk
      simp only [mapFind, if_pos rfl] at hfind
      injection hfind with hfind
      subst hfind
      have hnone : mapFind rest k = none := by
        rw [mapFind_eq_none_iff]
        exact SideSorted.keys_ne hl hs rfl
      by_cases hemp : (M.remove_order h q).orders.isEmpty
      · have hemp2 : (M.orders.erase h).isEmpty = true := hemp
        have hred : sideRemove k h q ((k, M) :: rest) = rest := by
          simp [sideRemove, hemp]
        rw [hred, hnone, if_pos hemp2]
      · have hemp2 : ¬(M.orders.erase h).isEmpty = true := hemp
        have hred : sideRemove k h q ((k, M) :: rest) = (k, M.remove_order h q) :: rest := by
          simp [sideRemove, hemp]
        rw [hred, if_neg hemp2]
        simp [mapFind]
    · simp only [mapFind, hk, if_false] at hfind
      simp only [sideRemove, hk, if_false, mapFind, if_neg hk]
      exact ih (List.pairwise_cons.mp hs).2 hfind

theorem sideRemove_mem_char {cmp : Int → Int → Bool} (hl : LawfulCmp cmp)
    {p : Int} {h q : Nat} {side : List (Int × PriceLevelQueue)}
    (hs : SideSorted cmp side) {r : Int} {M : PriceLevelQueue} :
    (r, M) ∈ sideRemove p h q side ↔
      ((r, M) ∈ side ∧ r ≠ p) ∨
      (r = p ∧ ∃ L, mapFind side p = some L ∧ M = L.remove_order h q ∧
        ¬(L.orders.erase h).isEmpty) := by
  constructor
  · intro hmem
    have hsorted : SideSorted cmp (sideRemove p h q side) := sideRemove_sorted hs
    have hfound := mapFind_eq_some_of_mem hl hsorted hmem
    by_cases hr : r = p
    · subst hr
      cases horig : mapFind side r with
      | none =>
        rw [sideRemove_of_none horig] at hfound
        rw [horig] at hfound
        simp at hfound
      | some L =>
        rw [sideRemove_find_self hl hs horig] at hfound
        by_cases hemp : (L.orders.erase h).isEmpty
        · rw [if_pos hemp] at hfound
          exact absurd hfound (by simp)
        · rw [if_neg hemp] at hfound
          injection hfound with hfound
          exact Or.inr ⟨rfl, L, rfl, hfound.symm, hemp⟩
    · rw [sideRemove_find_ne hr] at hfound
      exact Or.inl ⟨mapFind_mem hfound, hr⟩
  · rintro (⟨hmem, hr⟩ | ⟨hr, L, hfind, hM, hemp⟩)
    · have hfound := mapFind_eq_some_of_mem hl hs hmem
      have : mapFind (sideRemove p h q side) r = some M := by
        rw [sideRemove_find_ne hr]
        exact hfound
      exact mapFind_mem this
    · have : mapFind (sideRemove p h q side) r = some M := by
        rw [hr, sideRemove_find_self hl hs hfind, if_neg hemp, hM]
      exact mapFind_mem this

theorem sideRemove_count {p : Int} {h q : Nat} {side : List (Int × PriceLevelQueue)}
    {L : PriceLevelQueue} (hfind : mapFind side p = some L) (hmem : h ∈ L.orders) (g : Nat) :
    (sideHandles (sideRemove p h q side)).count g + (if h = g then 1 else 0) =
      (sideHandles side).count g := by
  induction side with
  | nil => simp [mapFind] at hfind
  | cons a rest ih =>
    obtain ⟨k, M⟩ := a
    by_cases hk : k = p
    · subst hk
      simp only [mapFind, if_pos rfl] at hfind
      injection hfind with hfind
      subst hfind
      by_cases hemp : (M.remove_order h q).orders.isEmpty
      · have horders : M.orders.erase h = [] := by
          simpa [PriceLevelQueue.remove_order, List.isEmpty_iff] using hemp
        have hcount : M.orders.count g = ([h] : List Nat).count g := by
          have hperm : M.orders.Perm (h :: M.orders.erase h) := List.perm_cons_erase hmem
          rw [horders] at hperm
          exact hperm.count_eq g
        have hred : sideRemove k h q ((k, M) :: rest) = rest := by
          simp [sideRemove, hemp]
        rw [hred]
        have hexp : sideHandles ((k, M) :: rest) = M.orders ++ sideHandles rest := by
          simp [sideHandles]
        rw [hexp, List.count_append, hcount]
        by_cases hg : h = g
        · subst hg
          simp
          omega
        · simp [List.count_cons, hg]
      · have hred : sideRemove k h q ((k, M) :: rest) = (k, M.remove_order h q) :: rest := by
          simp [sideRemove, hemp]
        rw [hred]
        have hexp1 : sideHandles ((k, M.remove_order h q) :: rest)
            = M.orders.erase h ++ sideHandles rest := by
          simp [sideHandles, PriceLevelQueue.remove_order]
        have hexp2 : sideHandles ((k, M) :: rest) = M.orders ++ sideHandles rest := by
          simp [sideHandles]
        rw [hexp1, hexp2, List.count_append, List.count_append]
        by_cases hg : h = g
        · subst hg
          have h1 := List.count_erase_self h M.orders
          have hpos : 0 < M.orders.count h := List.count_pos_iff.mpr hmem
          simp only [if_pos rfl, eq_self_iff_true, if_true]
          omega
        · have h1 := List.count_erase_of_ne (Ne.symm hg) M.orders
          simp only [hg, if_false]
          omega
    · simp only [mapFind, hk, if_false] at hfind
      simp only [sideRemove, hk, if_false, sideHandles, List.map_cons, List.flatten_cons,
        List.count_append]
      simp only [sideHandles] at ih
      have := ih hfind
      omega

theorem sideUpdateQty_proj {p : Int} {oldq newq : Nat} {side : List (Int × PriceLevelQueue)} :
    (sideUpdateQty p oldq newq side).map (fun e => (e.1, e.2.orders)) =
      side.map (fun e => (e.1, e.2.orders)) := by
  induction side with
  | nil => simp [sideUpdateQty]
  | cons a rest ih =>
    obtain ⟨k, L⟩ := a
    by_cases hk : k = p
    · simp [sideUpdateQty, hk, PriceLevelQueue.update_quantity]
    · simp [sideUpdateQty, hk, ih]

theorem sideUpdateQty_handles {p : Int} {oldq newq : Nat} {side : List (Int × PriceLevelQueue)} :
    sideHandles (sideUpdateQty p oldq newq side) = sideHandles side := by
  have h := @sideUpdateQty_proj p oldq newq side
  unfold sideHandles
  have : (sideUpdateQty p oldq newq side).map (fun e => e.2.orders) =
      side.map (fun e => e.2.orders) := by
    have h2 := congrArg (List.map Prod.snd) h
    simpa [List.map_map, Function.comp] using h2
  rw [this]

theorem sideUpdateQty_find_ne {p r : Int} {oldq newq : Nat}
    {side : List (Int × PriceLevelQueue)} (hr : r ≠ p) :
    mapFind (sideUpdateQty p oldq newq side) r = mapFind side r := by
  induction side with
  | nil => simp [sideUpdateQty]
  | cons a rest ih =>
    obtain ⟨k, L⟩ := a
    by_cases hk : k = p
    · subst hk
      simp [sideUpdateQty, mapFind, Ne.symm hr]
    · by_cases hkr : k = r
      · subst hkr
        simp [sideUpdateQty, hk, mapFind]
      · simp [sideUpdateQty, hk, mapFind, hkr, ih]

theorem sideUpdateQty_find_self {p : Int} {oldq newq : Nat}
    {side : List (Int × PriceLevelQueue)} {L : PriceLevelQueue}
    (hfind : mapFind side p = some L) :
    mapFind (sideUpdateQty p oldq newq side) p = some (L.update_quantity oldq newq) := by
  induction side with
  | nil => simp [mapFind] at hfind
  | cons a rest ih =>
    obtain ⟨k, M⟩ := a
    by_cases hk : k = p
    · subst hk
      simp only [mapFind, if_pos rfl] at hfind
      injection hfind with hfind
      subst hfind
      simp [sideUpdateQty, mapFind]
    · simp only [mapFind, hk, if_false] at hfind
      simp [sideUpdateQty, hk, mapFind, ih hfind]

theorem sideUpdateQty_sorted {cmp : Int → Int → Bool}
    {p : Int} {oldq newq : Nat} {side : List (Int × PriceLevelQueue)}
    (hs : SideSorted cmp side) : SideSorted cmp (sideUpdateQty p oldq newq side) := by
  induction side with
  | nil => simpa [sideUpdateQty] using hs
  | cons a rest ih =>
    obtain ⟨k, L⟩ := a
    obtain ⟨hk, hrest⟩ := List.pairwise_cons.mp hs
    by_cases hkp : k = p
    · simp only [sideUpdateQty, if_pos hkp]
      exact List.pairwise_cons.mpr ⟨hk, hrest⟩
    · simp only [sideUpdateQty, hkp, if_false]
      refine List.pairwise_cons.mpr ⟨?_, ih hrest⟩
      intro e he
      have hkeys : (sideUpdateQty p oldq newq rest).map Prod.fst = rest.map Prod.fst := by
        have h2 := congrArg (List.map Prod.fst) (@sideUpdateQty_proj p oldq newq rest)
        simpa [List.map_map, Function.comp] using h2
      have : e.1 ∈ rest.map Prod.fst := by
        rw [← hkeys]
        exact List.mem_map.mpr ⟨e, he, rfl⟩
      obtain ⟨x, hx, hxe⟩ := List.mem_map.mp this
      exact hxe ▸ hk x hx

theorem sideUpdateQty_of_none {p : Int} {oldq newq : Nat}
    {side : List (Int × PriceLevelQueue)} (hnone : mapFind side p = none) :
    sideUpdateQty p oldq newq side = side := by
  induction side with
  | nil => simp [sideUpdateQty]
  | cons a rest ih =>
    obtain ⟨k, L⟩ := a
    by_cases hk : k = p
    · simp [mapFind, hk] at hnone
    · simp only [mapFind, hk, if_false] at hnone
      simp [sideUpdateQty, hk, ih hnone]

theorem sideUpdateQty_mem_char {cmp : Int → Int → Bool} (hl : LawfulCmp cmp)
    {p : Int} {oldq newq : Nat} {side : List (Int × PriceLevelQueue)}
    (hs : SideSorted cmp side) {r : Int} {M : PriceLevelQueue} :
    (r, M) ∈ sideUpdateQty p oldq newq side ↔
      ((r, M) ∈ side ∧ r ≠ p) ∨
      (r = p ∧ ∃ L, mapFind side p = some L ∧ M = L.update_quantity oldq newq) := by
  have hsorted : SideSorted cmp (sideUpdateQty p oldq newq side) := sideUpdateQty_sorted hs
  constructor
  · intro hmem
    have hfound := mapFind_eq_some_of_mem hl hsorted hmem
    by_cases hr : r = p
    · subst hr
      cases horig : mapFind side r with
      | none =>
        rw [sideUpdateQty_of_none horig] at hfound
        rw [horig] at hfound
        simp at hfound
      | some L =>
        rw [sideUpdateQty_find_self horig] at hfound
        injection hfound with hfound
        exact Or.inr ⟨rfl, L, rfl, hfound.symm⟩
    · rw [sideUpdateQty_find_ne hr] at hfound
      exact Or.inl ⟨mapFind_mem hfound, hr⟩
  · rintro (⟨hmem, hr⟩ | ⟨hr, L, hfind, hM⟩)
    · have hfound := mapFind_eq_some_of_mem hl hs hmem
      have : mapFind (sideUpdateQty p oldq newq side) r = some M := by
        rw [sideUpdateQty_find_ne hr]
        exact hfound
      exact mapFind_mem this
    · have : mapFind (sideUpdateQty p oldq newq side) r = some M := by
        rw [hr, sideUpdateQty_find_self hfind, hM]
      exact mapFind_mem this

/-! ## Side-level well-formedness -/

theorem mem_sideHandles {side : List (Int × PriceLevelQueue)} {e : Int × PriceLevelQueue}
    (he : e ∈ side) {g : Nat} (hg : g ∈ e.2.orders) : g ∈ sideHandles side := by
  unfold sideHandles
  exact List.mem_flatten.mpr ⟨e.2.orders, List.mem_map.mpr ⟨e, he, rfl⟩, hg⟩

theorem levelSum_congr {P P2 : MemoryPool} {L : PriceLevelQueue}
    (h : ∀ g ∈ L.orders, P2.read g = P.read g) : levelSum P2 L = levelSum P L := by
  unfold levelSum
  congr 1
  exact List.map_congr_left fun g hg => by rw [h g hg]

/-- Well-formedness of one side index against the pool: sorted by the side's
comparator, no empty levels, cached totals correct modulo `2 ^ 64`, every
linked node keyed under its own side and price. -/
structure SideWF (P : MemoryPool) (buy : Bool) (cmp : Int → Int → Bool)
    (side : List (Int × PriceLevelQueue)) : Prop where
  sorted : SideSorted cmp side
  nonempty : ∀ e ∈ side, e.2.orders ≠ []
  totals : ∀ e ∈ side, e.2.total_quantity = levelSum P e.2 % U64MOD
  keyed : ∀ e ∈ side, ∀ g ∈ e.2.orders, (P.read g).is_buy = buy ∧ (P.read g).price = e.1

theorem SideWF.transport {P P2 : MemoryPool} {buy : Bool} {cmp : Int → Int → Bool}
    {side : List (Int × PriceLevelQueue)} (hw : SideWF P buy cmp side)
    (hread : ∀ g ∈ sideHandles side, P2.read g = P.read g) : SideWF P2 buy cmp side := by
  refine ⟨hw.sorted, hw.nonempty, ?_, ?_⟩
  · intro e he
    rw [hw.totals e he]
    congr 1
    exact (levelSum_congr fun g hg => hread g (mem_sideHandles he hg)).symm
  · intro e he g hg
    rw [hread g (mem_sideHandles he hg)]
    exact hw.keyed e he g hg

theorem SideWF.insert {P : MemoryPool} {buy : Bool} {cmp : Int → Int → Bool}
    {side : List (Int × PriceLevelQueue)} (hl : LawfulCmp cmp) (hw : SideWF P buy cmp side)
    {h q : Nat} {p : Int}
    (hfresh : h ∉ sideHandles side)
    (hbuy : (P.read h).is_buy = buy) (hprice : (P.read h).price = p)
    (hq : (P.read h).quantity = q) :
    SideWF P buy cmp (mapInsertWith cmp (fun L => L.add_order h q) p side) := by
  refine ⟨mapInsertWith_sorted hl hw.sorted, ?_, ?_, ?_⟩
  · intro e he
    obtain ⟨r, M⟩ := e
    rcases (mapInsertWith_mem_char hl hw.sorted).mp he with ⟨hmem, _⟩ | ⟨_, hM⟩
    · exact hw.nonempty _ hmem
    · subst hM
      simp [PriceLevelQueue.add_order]
  · intro e he
    obtain ⟨r, M⟩ := e
    rcases (mapInsertWith_mem_char hl hw.sorted).mp he with ⟨hmem, _⟩ | ⟨hr, hM⟩
    · exact hw.totals _ hmem
    · subst hM
      cases hfind : mapFind side p with
      | none =>
        simp only [levelAtD, hfind, Option.getD_none]
        simp [PriceLevelQueue.add_order, PriceLevelQueue.emptyQ, levelSum, uadd, hq]
      | some L =>
        have hLmem := mapFind_mem hfind
        have hLtot := hw.totals _ hLmem
        simp only [levelAtD, hfind, Option.getD_some]
        simp only [PriceLevelQueue.add_order, levelSum, List.map_append, List.sum_append,
          List.map_cons, List.map_nil, List.sum_cons, List.sum_nil]
        simp only [levelSum] at hLtot
        rw [hLtot, hq, uadd_mod_left]
        simp
  · intro e he g hg
    obtain ⟨r, M⟩ := e
    rcases (mapInsertWith_mem_char hl hw.sorted).mp he with ⟨hmem, _⟩ | ⟨hr, hM⟩
    · exact hw.keyed _ hmem g hg
    · subst hM
      cases hfind : mapFind side p with
      | none =>
        simp only [levelAtD, hfind, Option.getD_none] at hg
        simp only [PriceLevelQueue.add_order, PriceLevelQueue.emptyQ, List.nil_append,
          List.mem_singleton] at hg
        subst hg
        exact ⟨hbuy, hprice.trans hr.symm⟩
      | some L =>
        have hLmem := mapFind_mem hfind
        simp only [levelAtD, hfind, Option.getD_some] at hg
        simp only [PriceLevelQueue.add_order, List.mem_append, List.mem_singleton] at hg
        rcases hg with hg | hg
        · have := hw.keyed _ hLmem g hg
          simp only at this
          exact ⟨this.1, this.2.trans hr.symm⟩
        · subst hg
          exact ⟨hbuy, hprice.trans hr.symm⟩

theorem levelSum_erase {P : MemoryPool} {l : List Nat} {h : Nat} (hmem : h ∈ l) :
    (l.map fun g => (P.read g).quantity).sum
      = (P.read h).quantity + ((l.erase h).map fun g => (P.read g).quantity).sum := by
  have hperm : l.Perm (h :: l.erase h) := List.perm_cons_erase hmem
  have := (hperm.map fun g => (P.read g).quantity).sum_eq
  simpa using this

theorem SideWF.remove {P : MemoryPool} {buy : Bool} {cmp : Int → Int → Bool}
    {side : List (Int × PriceLevelQueue)} (hl : LawfulCmp cmp) (hw : SideWF P buy cmp side)
    {h q : Nat} {p : Int} {L : PriceLevelQueue}
    (hfind : mapFind side p = some L) (hmem : h ∈ L.orders)
    (hq : (P.read h).quantity = q) :
    SideWF P buy cmp (sideRemove p h q side) := by
  refine ⟨sideRemove_sorted hw.sorted, ?_, ?_, ?_⟩
  · intro e he
    obtain ⟨r, M⟩ := e
    rcases (sideRemove_mem_char hl hw.sorted).mp he with ⟨hold, _⟩ | ⟨hr, L2, hfind2, hM, hne⟩
    · exact hw.nonempty _ hold
    · subst hM
      simpa [PriceLevelQueue.remove_order, List.isEmpty_iff] using hne
  · intro e he
    obtain ⟨r, M⟩ := e
    rcases (sideRemove_mem_char hl hw.sorted).mp he with ⟨hold, _⟩ | ⟨hr, L2, hfind2, hM, hne⟩
    · exact hw.totals _ hold
    · subst hM
      rw [hfind] at hfind2
      injection hfind2 with hfind2
      subst hfind2
      have hLtot := hw.totals _ (mapFind_mem hfind)
      simp only at hLtot
      simp only [PriceLevelQueue.remove_order, levelSum]
      simp only [levelSum] at hLtot
      have hsum := @levelSum_erase P L.orders _ hmem
      rw [hLtot, hq] at *
      have hle : q ≤ (L.orders.map fun g => (P.read g).quantity).sum := by
        rw [hsum]
        omega
      rw [usub_mod_left _ _ hle]
      congr 1
      omega
  · intro e he g hg
    obtain ⟨r, M⟩ := e
    rcases (sideRemove_mem_char hl hw.sorted).mp he with ⟨hold, _⟩ | ⟨hr, L2, hfind2, hM, hne⟩
    · exact hw.keyed _ hold g hg
    · subst hM
      rw [hfind] at hfind2
      injection hfind2 with hfind2
      subst hfind2
      have hg2 : g ∈ L.orders := by
        simp only [PriceLevelQueue.remove_order] at hg
        exact List.mem_of_mem_erase hg
      have := hw.keyed _ (mapFind_mem hfind) g hg2
      simp only at this
      exact ⟨this.1, this.2.trans hr.symm⟩

theorem SideWF.update {P P2 : MemoryPool} {buy : Bool} {cmp : Int → Int → Bool}
    {side : List (Int × PriceLevelQueue)} (hl : LawfulCmp cmp) (hw : SideWF P buy cmp side)
    {h oldq newq : Nat} {p : Int} {L : PriceLevelQueue}
    (hfind : mapFind side p = some L) (hmem : h ∈ L.orders)
    (honceL : L.orders.count h = 1)
    (honly : ∀ e ∈ side, e.1 ≠ p → h ∉ e.2.orders)
    (hreadh_buy : (P2.read h).is_buy = (P.read h).is_buy)
    (hreadh_price : (P2.read h).price = (P.read h).price)
    (hreadh_q : (P2.read h).quantity = newq)
    (hread : ∀ g, g ≠ h → P2.read g = P.read g)
    (holdq : (P.read h).quantity = oldq) :
    SideWF P2 buy cmp (sideUpdateQty p oldq newq side) := by
  refine ⟨sideUpdateQty_sorted hw.sorted, ?_, ?_, ?_⟩
  · intro e he
    obtain ⟨r, M⟩ := e
    rcases (sideUpdateQty_mem_char hl hw.sorted).mp he with ⟨hold, _⟩ | ⟨hr, L2, hfind2, hM⟩
    · exact hw.nonempty _ hold
    · subst hM
      rw [hfind] at hfind2
      injection hfind2 with hfind2
      subst hfind2
      simpa [PriceLevelQueue.update_quantity] using hw.nonempty _ (mapFind_mem hfind)
  · intro e he
    obtain ⟨r, M⟩ := e
    rcases (sideUpdateQty_mem_char hl hw.sorted).mp he with ⟨hold, hr⟩ | ⟨hr, L2, hfind2, hM⟩
    · rw [hw.totals _ hold]
      congr 1
      refine (levelSum_congr ?_).symm
      intro g hg
      have hgh : g ≠ h := by
        intro hgh
        subst hgh
        exact honly _ hold hr hg
      exact hread g hgh
    · subst hM
      rw [hfind] at hfind2
      injection hfind2 with hfind2
      subst hfind2
      have hLtot := hw.totals _ (mapFind_mem hfind)
      simp only at hLtot
      simp only [PriceLevelQueue.update_quantity, levelSum]
      simp only [levelSum] at hLtot
      rw [hLtot]
      have hsum_old := @levelSum_erase P L.orders _ hmem
      have hsum_new := @levelSum_erase P2 L.orders _ hmem
      have herase_eq : ((L.orders.erase h).map fun g => (P2.read g).quantity).sum
          = ((L.orders.erase h).map fun g => (P.read g).quantity).sum := by
        congr 1
        refine List.map_congr_left ?_
        intro g hg
        have hgh : g ≠ h := by
          intro hgh
          subst hgh
          have := List.count_erase_self g L.orders
          have hpos := List.count_pos_iff.mpr hg
          omega
        rw [hread g hgh]
      have hle : oldq ≤ (L.orders.map fun g => (P.read g).quantity).sum := by
        rw [hsum_old, holdq]
        omega
      rw [update_total_eq _ _ _ hle]
      rw [hsum_new, hreadh_q, herase_eq]
      congr 1
      rw [hsum_old, holdq]
      omega
  · intro e he g hg
    obtain ⟨r, M⟩ := e
    rcases (sideUpdateQty_mem_char hl hw.sorted).mp he with ⟨hold, hr⟩ | ⟨hr, L2, hfind2, hM⟩
    · have hgh : g ≠ h := by
        intro hgh
        subst hgh
        exact honly _ hold hr hg
      rw [hread g hgh]
      exact hw.keyed _ hold g hg
    · subst hM
      rw [hfind] at hfind2
      injection hfind2 with hfind2
      subst hfind2
      simp only [PriceLevelQueue.update_quantity] at hg
      have hkey := hw.keyed _ (mapFind_mem hfind) g hg
      simp only at hkey
      by_cases hgh : g = h
      · subst hgh
        refine ⟨hreadh_buy.trans hkey.1, ?_⟩
        rw [hreadh_price, hkey.2, hr]
      · rw [hread g hgh]
        exact ⟨hkey.1, hkey.2.trans hr.symm⟩

/-- A handle linked into two different price levels of one side occurs at
least twice among the side's handles. -/
theorem sideHandles_two_entries {side : List (Int × PriceLevelQueue)} {p r : Int}
    {L M : PriceLevelQueue} (hp : (p, L) ∈ side) (hr : (r, M) ∈ side) (hne : p ≠ r)
    {g : Nat} (hgL : g ∈ L.orders) (hgM : g ∈ M.orders) :
    2 ≤ (sideHandles side).count g := by
  induction side with
  | nil => simp at hp
  | cons a rest ih =>
    have hexp : sideHandles (a :: rest) = a.2.orders ++ sideHandles rest := by
      simp [sideHandles]
    rw [hexp, List.count_append]
    rcases List.mem_cons.mp hp with h1 | h1 <;> rcases List.mem_cons.mp hr with h2 | h2
    · exfalso
      rw [← h2] at h1
      exact hne (congrArg Prod.fst h1)
    · have hc1 : 1 ≤ a.2.orders.count g := by
        rw [← h1]
        exact List.count_pos_iff.mpr hgL
      have hc2 : 1 ≤ (sideHandles rest).count g :=
        List.count_pos_iff.mpr (mem_sideHandles h2 hgM)
      omega
    · have hc1 : 1 ≤ a.2.orders.count g := by
        rw [← h2]
        exact List.count_pos_iff.mpr hgM
      have hc2 : 1 ≤ (sideHandles rest).count g :=
        List.count_pos_iff.mpr (mem_sideHandles h1 hgL)
      omega
    · have := ih h1 h2
      omega

/-! ## The global well-formedness invariant of `OrderBook` -/

/-- The cross-index invariant of a book state: both sides well-formed against
the pool, every live handle linked exactly once, the order index and the side
indices mutually consistent, all handles and slots below the bump pointer,
and all stored quantities genuine `uint64_t` values. -/
structure OrderBook.WF (B : OrderBook) : Prop where
  bidsWF : SideWF B.pool true cmpGT B.bids
  asksWF : SideWF B.pool false cmpLT B.asks
  handles_nodup : (allHandles B).Nodup
  keys_nodup : (B.order_lookup.map Prod.fst).Nodup
  lhandles_nodup : (B.order_lookup.map Prod.snd).Nodup
  lookup_to_level : ∀ e ∈ B.order_lookup,
    ∃ L, mapFind (B.sideFor (B.pool.read e.2).is_buy) (B.pool.read e.2).price = some L ∧
      e.2 ∈ L.orders
  level_to_lookup : ∀ g ∈ allHandles B, ∃ id, (id, g) ∈ B.order_lookup
  handles_lt : ∀ e ∈ B.order_lookup, e.2 < B.pool.next_slot
  mem_lt : ∀ e ∈ B.pool.mem, e.1 < B.pool.next_slot
  mem_nodup : (B.pool.mem.map Prod.fst).Nodup
  lookup_alloc : ∀ e ∈ B.order_lookup, (alistFind B.pool.mem e.2).isSome
  q_lt : ∀ e ∈ B.order_lookup, (B.pool.read e.2).quantity < U64MOD

theorem OrderBook.WF.emptyB : OrderBook.WF OrderBook.emptyB := by
  refine ⟨⟨?_, ?_, ?_, ?_⟩, ⟨?_, ?_, ?_, ?_⟩, ?_, ?_, ?_, ?_, ?_, ?_, ?_, ?_, ?_, ?_⟩ <;>
    simp [OrderBook.emptyB, SideSorted, sideHandles, allHandles, MemoryPool.emptyP]

/-- A live handle occurs among the linked handles. -/
theorem OrderBook.WF.handle_in_all {B : OrderBook} (hw : B.WF) {e : Nat × Nat}
    (he : e ∈ B.order_lookup) : e.2 ∈ allHandles B := by
  obtain ⟨L, hfind, hmem⟩ := hw.lookup_to_level e he
  have hLmem := mapFind_mem hfind
  unfold allHandles
  cases hbuy : (B.pool.read e.2).is_buy with
  | true =>
    rw [hbuy] at hLmem
    simp only [OrderBook.sideFor, if_true] at hLmem
    exact List.mem_append.mpr (Or.inl (mem_sideHandles hLmem hmem))
  | false =>
    rw [hbuy] at hLmem
    simp only [OrderBook.sideFor, Bool.false_eq_true, if_false] at hLmem
    exact List.mem_append.mpr (Or.inr (mem_sideHandles hLmem hmem))

/-- The bump pointer is above every linked handle. -/
theorem OrderBook.WF.all_lt {B : OrderBook} (hw : B.WF) {g : Nat}
    (hg : g ∈ allHandles B) : g < B.pool.next_slot := by
  obtain ⟨id, hid⟩ := hw.level_to_lookup g hg
  exact hw.handles_lt _ hid

theorem OrderBook.WF.fresh_not_in_all {B : OrderBook} (hw : B.WF) :
    B.pool.next_slot ∉ allHandles B := by
  intro hmem
  exact absurd (hw.all_lt hmem) (lt_irrefl _)

/-! ## Shape lemmas: each operation's result under its branch conditions -/

theorem OrderBook.add_order_eq {B : OrderBook} {o : Order}
    (hfresh : alistFind B.order_lookup o.order_id = none) :
    B.add_order o =
      { bids := if o.is_buy then
            mapInsertWith cmpGT (fun L => L.add_order B.pool.next_slot o.quantity) o.price B.bids
          else B.bids,
        asks := if o.is_buy then B.asks
          else mapInsertWith cmpLT (fun L => L.add_order B.pool.next_slot o.quantity) o.price B.asks,
        order_lookup := B.order_lookup ++ [(o.order_id, B.pool.next_slot)],
        pool := ⟨(B.pool.next_slot, o) :: B.pool.mem, B.pool.next_slot + 1⟩ } := by
  unfold OrderBook.add_order OrderBook.add_to_side MemoryPool.construct
  rw [hfresh]
  by_cases hb : o.is_buy <;> simp [hb]

theorem OrderBook.add_order_dup {B : OrderBook} {o : Order}
    (hdup : (alistFind B.order_lookup o.order_id).isSome) :
    B.add_order o = B := by
  unfold OrderBook.add_order
  rw [if_pos hdup]

theorem OrderBook.cancel_order_none {B : OrderBook} {id : Nat}
    (hfind : alistFind B.order_lookup id = none) :
    B.cancel_order id = (false, B) := by
  unfold OrderBook.cancel_order
  rw [hfind]

theorem OrderBook.cancel_order_eq {B : OrderBook} {id h : Nat}
    (hfind : alistFind B.order_lookup id = some h) :
    B.cancel_order id = (true,
      { bids := if (B.pool.read h).is_buy then
            sideRemove (B.pool.read h).price h (B.pool.read h).quantity B.bids
          else B.bids,
        asks := if (B.pool.read h).is_buy then B.asks
          else sideRemove (B.pool.read h).price h (B.pool.read h).quantity B.asks,
        order_lookup := alistErase B.order_lookup id,
        pool := B.pool.destroy h }) := by
  unfold OrderBook.cancel_order OrderBook.remove_from_side
  rw [hfind]
  by_cases hb : (B.pool.read h).is_buy <;> simp [hb]

theorem OrderBook.amend_order_none {B : OrderBook} {id : Nat} {np : Int} {nq : Nat}
    (hfind : alistFind B.order_lookup id = none) :
    B.amend_order id np nq = (false, B) := by
  unfold OrderBook.amend_order
  rw [hfind]

theorem OrderBook.amend_order_eq_price {B : OrderBook} {id h : Nat} {np : Int} {nq : Nat}
    (hfind : alistFind B.order_lookup id = some h)
    (hne : (B.pool.read h).price ≠ np) :
    B.amend_order id np nq = (true,
      { bids := if (B.pool.read h).is_buy then
            mapInsertWith cmpGT (fun L => L.add_order h nq) np
              (sideRemove (B.pool.read h).price h (B.pool.read h).quantity B.bids)
          else B.bids,
        asks := if (B.pool.read h).is_buy then B.asks
          else mapInsertWith cmpLT (fun L => L.add_order h nq) np
              (sideRemove (B.pool.read h).price h (B.pool.read h).quantity B.asks),
        order_lookup := B.order_lookup,
        pool := B.pool.write h { B.pool.read h with price := np, quantity := nq } }) := by
  unfold OrderBook.amend_order OrderBook.remove_from_side OrderBook.add_to_side
  rw [hfind]
  by_cases hb : (B.pool.read h).is_buy <;> simp [hb, hne]

theorem OrderBook.amend_order_eq_qty_bid {B : OrderBook} {id h : Nat} {nq : Nat}
    {L : PriceLevelQueue}
    (hfind : alistFind B.order_lookup id = some h)
    (hqne : (B.pool.read h).quantity ≠ nq)
    (hbuy : (B.pool.read h).is_buy = true)
    (hlev : mapFind B.bids (B.pool.read h).price = some L) :
    B.amend_order id (B.pool.read h).price nq = (true,
      { bids := sideUpdateQty (B.pool.read h).price (B.pool.read h).quantity nq B.bids,
        asks := B.asks,
        order_lookup := B.order_lookup,
        pool := B.pool.write h { B.pool.read h with quantity := nq } }) := by
  unfold OrderBook.amend_order
  rw [hfind]
  simp [hbuy, hqne, hlev]

theorem OrderBook.amend_order_eq_qty_ask {B : OrderBook} {id h : Nat} {nq : Nat}
    {L : PriceLevelQueue}
    (hfind : alistFind B.order_lookup id = some h)
    (hqne : (B.pool.read h).quantity ≠ nq)
    (hbuy : (B.pool.read h).is_buy = false)
    (hlev : mapFind B.asks (B.pool.read h).price = some L) :
    B.amend_order id (B.pool.read h).price nq = (true,
      { bids := B.bids,
        asks := sideUpdateQty (B.pool.read h).price (B.pool.read h).quantity nq B.asks,
        order_lookup := B.order_lookup,
        pool := B.pool.write h { B.pool.read h with quantity := nq } }) := by
  unfold OrderBook.amend_order
  rw [hfind]
  simp [hbuy, hqne, hlev]

theorem OrderBook.amend_order_eq_qty_none_bid {B : OrderBook} {id h : Nat} {nq : Nat}
    (hfind : alistFind B.order_lookup id = some h)
    (hqne : (B.pool.read h).quantity ≠ nq)
    (hbuy : (B.pool.read h).is_buy = true)
    (hlev : mapFind B.bids (B.pool.read h).price = none) :
    B.amend_order id (B.pool.read h).price nq = (true, B) := by
  unfold OrderBook.amend_order
  rw [hfind]
  simp [hbuy, hqne, hlev]

theorem OrderBook.amend_order_eq_qty_none_ask {B : OrderBook} {id h : Nat} {nq : Nat}
    (hfind : alistFind B.order_lookup id = some h)
    (hqne : (B.pool.read h).quantity ≠ nq)
    (hbuy : (B.pool.read h).is_buy = false)
    (hlev : mapFind B.asks (B.pool.read h).price = none) :
    B.amend_order id (B.pool.read h).price nq = (true, B) := by
  unfold OrderBook.amend_order
  rw [hfind]
  simp [hbuy, hqne, hlev]

theorem OrderBook.amend_order_eq_noop {B : OrderBook} {id h : Nat} {np : Int} {nq : Nat}
    (hfind : alistFind B.order_lookup id = some h)
    (hpe : (B.pool.read h).price = np)
    (hqe : (B.pool.read h).quantity = nq) :
    B.amend_order id np nq = (true, B) := by
  unfold OrderBook.amend_order
  rw [hfind]
  simp [hpe, hqe]

theorem OrderBook.WF.add {B : OrderBook} (hw : B.WF) {o : Order} (hq : o.quantity < U64MOD) :
    (B.add_order o).WF := by
  cases hdup : alistFind B.order_lookup o.order_id with
  | some h =>
    rw [OrderBook.add_order_dup (by simp [hdup])]
    exact hw
  | none =>
    rw [OrderBook.add_order_eq hdup]
    have hreadn : (MemoryPool.mk ((B.pool.next_slot, o) :: B.pool.mem) (B.pool.next_slot + 1)).read
        B.pool.next_slot = o := by
      simp [MemoryPool.read, alistFind]
    have hreadg : ∀ g, g ≠ B.pool.next_slot →
        (MemoryPool.mk ((B.pool.next_slot, o) :: B.pool.mem) (B.pool.next_slot + 1)).read g =
          B.pool.read g := by
      intro g hg
      simp [MemoryPool.read, alistFind, Ne.symm hg]
    have hfresh_all : B.pool.next_slot ∉ allHandles B := hw.fresh_not_in_all
    have hbids_ne : ∀ g ∈ sideHandles B.bids, g ≠ B.pool.next_slot := by
      intro g hg heq
      exact hfresh_all (heq ▸ List.mem_append.mpr (Or.inl hg))
    have hasks_ne : ∀ g ∈ sideHandles B.asks, g ≠ B.pool.next_slot := by
      intro g hg heq
      exact hfresh_all (heq ▸ List.mem_append.mpr (Or.inr hg))
    have hbids_fresh : B.pool.next_slot ∉ sideHandles B.bids := by
      intro hmem
      exact hbids_ne _ hmem rfl
    have hasks_fresh : B.pool.next_slot ∉ sideHandles B.asks := by
      intro hmem
      exact hasks_ne _ hmem rfl
    have htrans_bids : SideWF (MemoryPool.mk ((B.pool.next_slot, o) :: B.pool.mem)
        (B.pool.next_slot + 1)) true cmpGT B.bids :=
      hw.bidsWF.transport fun g hg => hreadg g (hbids_ne g hg)
    have htrans_asks : SideWF (MemoryPool.mk ((B.pool.next_slot, o) :: B.pool.mem)
        (B.pool.next_slot + 1)) false cmpLT B.asks :=
      hw.asksWF.transport fun g hg => hreadg g (hasks_ne g hg)
    have hid_fresh : ∀ e ∈ B.order_lookup, e.1 ≠ o.order_id := alistFind_eq_none.mp hdup
    have hfresh_lh : ∀ e ∈ B.order_lookup, e.2 ≠ B.pool.next_slot := by
      intro e he
      exact Nat.ne_of_lt (hw.handles_lt e he)
    have hkeys : ((B.order_lookup ++ [(o.order_id, B.pool.next_slot)]).map Prod.fst).Nodup := by
      simp only [List.map_append, List.map_cons, List.map_nil]
      rw [List.nodup_append]
      refine ⟨hw.keys_nodup, List.nodup_singleton _, ?_⟩
      intro a ha hb2
      simp only [List.mem_singleton] at hb2
      subst hb2
      obtain ⟨e, he, hea⟩ := List.mem_map.mp ha
      exact hid_fresh e he hea
    have hlh : ((B.order_lookup ++ [(o.order_id, B.pool.next_slot)]).map Prod.snd).Nodup := by
      simp only [List.map_append, List.map_cons, List.map_nil]
      rw [List.nodup_append]
      refine ⟨hw.lhandles_nodup, List.nodup_singleton _, ?_⟩
      intro a ha hb2
      simp only [List.mem_singleton] at hb2
      subst hb2
      obtain ⟨e, he, hea⟩ := List.mem_map.mp ha
      exact hfresh_lh e he hea
    have hmem_lt : ∀ e ∈ ((B.pool.next_slot, o) :: B.pool.mem), e.1 < B.pool.next_slot + 1 := by
      intro e he
      rcases List.mem_cons.mp he with h1 | h1
      · subst h1
        omega
      · have := hw.mem_lt e h1
        omega
    have hmem_nd : (((B.pool.next_slot, o) :: B.pool.mem).map Prod.fst).Nodup := by
      simp only [List.map_cons, List.nodup_cons]
      refine ⟨?_, hw.mem_nodup⟩
      intro hmem
      obtain ⟨e, he, hea⟩ := List.mem_map.mp hmem
      exact absurd (hea ▸ hw.mem_lt e he) (lt_irrefl _)
    have hlt : ∀ e ∈ (B.order_lookup ++ [(o.order_id, B.pool.next_slot)]),
        e.2 < B.pool.next_slot + 1 := by
      intro e he
      rcases List.mem_append.mp he with h1 | h1
      · have := hw.handles_lt e h1
        omega
      · simp only [List.mem_singleton] at h1
        subst h1
        omega
    have halloc : ∀ e ∈ (B.order_lookup ++ [(o.order_id, B.pool.next_slot)]),
        (alistFind ((B.pool.next_slot, o) :: B.pool.mem) e.2).isSome := by
      intro e he
      rcases List.mem_append.mp he with h1 | h1
      · have hne := hfresh_lh e h1
        simp only [alistFind, Ne.symm hne, if_false]
        exact hw.lookup_alloc e h1
      · simp only [List.mem_singleton] at h1
        subst h1
        simp [alistFind]
    have hqlt : ∀ e ∈ (B.order_lookup ++ [(o.order_id, B.pool.next_slot)]),
        ((MemoryPool.mk ((B.pool.next_slot, o) :: B.pool.mem) (B.pool.next_slot + 1)).read
          e.2).quantity < U64MOD := by
      intro e he
      rcases List.mem_append.mp he with h1 | h1
      · rw [hreadg e.2 (hfresh_lh e h1)]
        exact hw.q_lt e h1
      · simp only [List.mem_singleton] at h1
        subst h1
        rw [hreadn]
        exact hq
    by_cases hb : o.is_buy
    · simp only [hb, if_true]
      have hbids2 : SideWF (MemoryPool.mk ((B.pool.next_slot, o) :: B.pool.mem)
          (B.pool.next_slot + 1)) true cmpGT
          (mapInsertWith cmpGT (fun L => L.add_order B.pool.next_slot o.quantity) o.price B.bids) :=
        SideWF.insert lawful_cmpGT htrans_bids hbids_fresh
          (by rw [hreadn]; exact hb) (by rw [hreadn]) (by rw [hreadn])
      have hcount : ∀ g, (sideHandles (mapInsertWith cmpGT
          (fun L => L.add_order B.pool.next_slot o.quantity) o.price B.bids)).count g =
            (sideHandles B.bids).count g + (if B.pool.next_slot = g then 1 else 0) :=
        fun g => sideHandles_insert_count g
      refine ⟨hbids2, htrans_asks, ?_, hkeys, hlh, ?_, ?_, hlt, hmem_lt, hmem_nd, halloc, hqlt⟩
      · rw [List.nodup_iff_count_le_one]
        intro g
        have hc := hcount g
        have hold := List.nodup_iff_count_le_one.mp hw.handles_nodup g
        simp only [allHandles, List.count_append] at hold ⊢
        by_cases hgn : B.pool.next_slot = g
        · subst hgn
          rw [if_pos rfl] at hc
          have h0b : (sideHandles B.bids).count B.pool.next_slot = 0 :=
            List.count_eq_zero.mpr hbids_fresh
          have h0a : (sideHandles B.asks).count B.pool.next_slot = 0 :=
            List.count_eq_zero.mpr hasks_fresh
          omega
        · simp only [hgn, if_false] at hc
          omega
      · intro e he
        rcases List.mem_append.mp he with h1 | h1
        · have hne := hfresh_lh e h1
          simp only [hreadg e.2 hne]
          obtain ⟨L, hfindL, hmemL⟩ := hw.lookup_to_level e h1
          cases hbuy2 : (B.pool.read e.2).is_buy with
          | true =>
            rw [hbuy2] at hfindL
            simp only [OrderBook.sideFor, if_true] at hfindL ⊢
            by_cases hp2 : (B.pool.read e.2).price = o.price
            · rw [hp2] at hfindL ⊢
              refine ⟨(levelAtD B.bids o.price).add_order B.pool.next_slot o.quantity,
                mapInsertWith_find_self lawful_cmpGT hw.bidsWF.sorted, ?_⟩
              simp only [levelAtD, hfindL, Option.getD_some, PriceLevelQueue.add_order]
              exact List.mem_append.mpr (Or.inl hmemL)
            · rw [mapInsertWith_find_ne hp2]
              exact ⟨L, hfindL, hmemL⟩
          | false =>
            rw [hbuy2] at hfindL
            simp only [OrderBook.sideFor, Bool.false_eq_true, if_false] at hfindL ⊢
            exact ⟨L, hfindL, hmemL⟩
        · simp only [List.mem_singleton] at h1
          subst h1
          simp only [hreadn]
          rw [hb]
          simp only [OrderBook.sideFor, if_true]
          refine ⟨(levelAtD B.bids o.price).add_order B.pool.next_slot o.quantity,
            mapInsertWith_find_self lawful_cmpGT hw.bidsWF.sorted, ?_⟩
          simp [PriceLevelQueue.add_order]
      · intro g hg
        simp only [allHandles, List.count_append] at hg
        by_cases hgn : g = B.pool.next_slot
        · subst hgn
          exact ⟨o.order_id, List.mem_append.mpr (Or.inr (List.mem_singleton.mpr rfl))⟩
        · have hgmem : g ∈ allHandles B := by
            have hc := hcount g
            have hne2 : ¬(B.pool.next_slot = g) := fun hh => hgn hh.symm
            rw [if_neg hne2, Nat.add_zero] at hc
            simp only [allHandles]
            rcases List.mem_append.mp hg with hm | hm
            · have hpos := List.count_pos_iff.mpr hm
              rw [hc] at hpos
              exact List.mem_append.mpr (Or.inl (List.count_pos_iff.mp hpos))
            · exact List.mem_append.mpr (Or.inr hm)
          obtain ⟨id2, hid2⟩ := hw.level_to_lookup g hgmem
          exact ⟨id2, List.mem_append.mpr (Or.inl hid2)⟩
    · have hb2 : o.is_buy = false := Bool.eq_false_iff.mpr hb
      simp only [hb2, Bool.false_eq_true, if_false]
      have hasks2 : SideWF (MemoryPool.mk ((B.pool.next_slot, o) :: B.pool.mem)
          (B.pool.next_slot + 1)) false cmpLT
          (mapInsertWith cmpLT (fun L => L.add_order B.pool.next_slot o.quantity) o.price B.asks) :=
        SideWF.insert lawful_cmpLT htrans_asks hasks_fresh
          (by rw [hreadn]; exact hb2) (by rw [hreadn]) (by rw [hreadn])
      have hcount : ∀ g, (sideHandles (mapInsertWith cmpLT
          (fun L => L.add_order B.pool.next_slot o.quantity) o.price B.asks)).count g =
            (sideHandles B.asks).count g + (if B.pool.next_slot = g then 1 else 0) :=
        fun g => sideHandles_insert_count g
      refine ⟨htrans_bids, hasks2, ?_, hkeys, hlh, ?_, ?_, hlt, hmem_lt, hmem_nd, halloc, hqlt⟩
      · rw [List.nodup_iff_count_le_one]
        intro g
        have hc := hcount g
        have hold := List.nodup_iff_count_le_one.mp hw.handles_nodup g
        simp only [allHandles, List.count_append] at hold ⊢
        by_cases hgn : B.pool.next_slot = g
        · subst hgn
          rw [if_pos rfl] at hc
          have h0b : (sideHandles B.bids).count B.pool.next_slot = 0 :=
            List.count_eq_zero.mpr hbids_fresh
          have h0a : (sideHandles B.asks).count B.pool.next_slot = 0 :=
            List.count_eq_zero.mpr hasks_fresh
          omega
        · simp only [hgn, if_false] at hc
          omega
      · intro e he
        rcases List.mem_append.mp he with h1 | h1
        · have hne := hfresh_lh e h1
          simp only [hreadg e.2 hne]
          obtain ⟨L, hfindL, hmemL⟩ := hw.lookup_to_level e h1
          cases hbuy2 : (B.pool.read e.2).is_buy with
          | false =>
            rw [hbuy2] at hfindL
            simp only [OrderBook.sideFor, Bool.false_eq_true, if_false] at hfindL ⊢
            by_cases hp2 : (B.pool.read e.2).price = o.price
            · rw [hp2] at hfindL ⊢
              refine ⟨(levelAtD B.asks o.price).add_order B.pool.next_slot o.quantity,
                mapInsertWith_find_self lawful_cmpLT hw.asksWF.sorted, ?_⟩
              simp only [levelAtD, hfindL, Option.getD_some, PriceLevelQueue.add_order]
              exact List.mem_append.mpr (Or.inl hmemL)
            · rw [mapInsertWith_find_ne hp2]
              exact ⟨L, hfindL, hmemL⟩
          | true =>
            rw [hbuy2] at hfindL
            simp only [OrderBook.sideFor, if_true] at hfindL ⊢
            exact ⟨L, hfindL, hmemL⟩
        · simp only [List.mem_singleton] at h1
          subst h1
          simp only [hreadn]
          rw [hb2]
          simp only [OrderBook.sideFor, Bool.false_eq_true, if_false]
          refine ⟨(levelAtD B.asks o.price).add_order B.pool.next_slot o.quantity,
            mapInsertWith_find_self lawful_cmpLT hw.asksWF.sorted, ?_⟩
          simp [PriceLevelQueue.add_order]
      · intro g hg
        simp only [allHandles, List.count_append] at hg
        by_cases hgn : g = B.pool.next_slot
        · subst hgn
          exact ⟨o.order_id, List.mem_append.mpr (Or.inr (List.mem_singleton.mpr rfl))⟩
        · have hgmem : g ∈ allHandles B := by
            have hc := hcount g
            have hne2 : ¬(B.pool.next_slot = g) := fun hh => hgn hh.symm
            rw [if_neg hne2, Nat.add_zero] at hc
            simp only [allHandles]
            rcases List.mem_append.mp hg with hm | hm
            · exact List.mem_append.mpr (Or.inl hm)
            · have hpos := List.count_pos_iff.mpr hm
              rw [hc] at hpos
              exact List.mem_append.mpr (Or.inr (List.count_pos_iff.mp hpos))
          obtain ⟨id2, hid2⟩ := hw.level_to_lookup g hgmem
          exact ⟨id2, List.mem_append.mpr (Or.inl hid2)⟩

theorem count_level_le_side {side : List (Int × PriceLevelQueue)} {e : Int × PriceLevelQueue}
    (he : e ∈ side) (g : Nat) : e.2.orders.count g ≤ (sideHandles side).count g := by
  unfold sideHandles
  rw [List.count_flatten]
  exact List.single_le_sum (fun y _ => Nat.zero_le y) _
    (List.mem_map.mpr ⟨e.2.orders, List.mem_map.mpr ⟨e, he, rfl⟩, rfl⟩)

/-- The bookkeeping facts about the unique position of a live node: its level
on its own side, a count of one there, and absence from everywhere else. -/
theorem OrderBook.WF.live_node_facts {B : OrderBook} (hw : B.WF) {id h : Nat}
    (hentry : (id, h) ∈ B.order_lookup) :
    ∃ L, mapFind (B.sideFor (B.pool.read h).is_buy) (B.pool.read h).price = some L ∧
      h ∈ L.orders ∧ L.orders.count h = 1 ∧
      (sideHandles (B.sideFor (B.pool.read h).is_buy)).count h = 1 ∧
      (sideHandles (B.sideFor (!(B.pool.read h).is_buy))).count h = 0 := by
  obtain ⟨L, hfindL, hmemL⟩ := hw.lookup_to_level (id, h) hentry
  dsimp only at hfindL hmemL
  have hall : (allHandles B).count h = 1 :=
    List.count_eq_one_of_mem hw.handles_nodup (hw.handle_in_all hentry)
  have hLmem := mapFind_mem hfindL
  have hside_ge : 1 ≤ (sideHandles (B.sideFor (B.pool.read h).is_buy)).count h :=
    List.count_pos_iff.mpr (mem_sideHandles hLmem hmemL)
  have hsplit : (sideHandles B.bids).count h + (sideHandles B.asks).count h = 1 := by
    simpa [allHandles, List.count_append] using hall
  have hlev_le := count_level_le_side hLmem h
  dsimp only at hLmem hlev_le
  cases hbuy : (B.pool.read h).is_buy with
  | true =>
    rw [hbuy] at hfindL hside_ge hlev_le hLmem
    have hpos : 0 < L.orders.count h := List.count_pos_iff.mpr hmemL
    simp only [OrderBook.sideFor, if_true, Bool.not_true, Bool.false_eq_true, if_false] at hfindL hside_ge hlev_le hLmem ⊢
    refine ⟨L, hfindL, hmemL, ?_, ?_, ?_⟩ <;> omega
  | false =>
    rw [hbuy] at hfindL hside_ge hlev_le hLmem
    have hpos : 0 < L.orders.count h := List.count_pos_iff.mpr hmemL
    simp only [OrderBook.sideFor, Bool.false_eq_true, if_false, Bool.not_false, if_true] at hfindL hside_ge hlev_le hLmem ⊢
    refine ⟨L, hfindL, hmemL, ?_, ?_, ?_⟩ <;> omega

theorem OrderBook.WF.cancel {B : OrderBook} (hw : B.WF) (id : Nat) :
    (B.cancel_order id).2.WF := by
  cases hfind : alistFind B.order_lookup id with
  | none =>
    rw [OrderBook.cancel_order_none hfind]
    exact hw
  | some h =>
    rw [OrderBook.cancel_order_eq hfind]
    have hentry : (id, h) ∈ B.order_lookup := alistFind_some_mem hfind
    obtain ⟨L, hfindL, hmemL, honceL, hcount_my, hcount_other⟩ := hw.live_node_facts hentry
    have hread2 : ∀ g, g ≠ h → (B.pool.destroy h).read g = B.pool.read g :=
      fun g hg => B.pool.read_destroy_ne h hg
    have huniq_handle : ∀ e ∈ B.order_lookup, e.2 = h → e = (id, h) := by
      intro e he h2
      exact List.inj_on_of_nodup_map hw.lhandles_nodup he hentry (by simpa using h2)
    have huniq_key : ∀ e ∈ B.order_lookup, e.1 = id → e = (id, h) := by
      intro e he h2
      exact List.inj_on_of_nodup_map hw.keys_nodup he hentry (by simpa using h2)
    have herase_sub : ∀ e ∈ alistErase B.order_lookup id, e ∈ B.order_lookup :=
      fun e he => (alistErase_sublist _ _).subset he
    have herase_ne_h : ∀ e ∈ alistErase B.order_lookup id, e.2 ≠ h := by
      intro e he h2
      have hee := huniq_handle e (herase_sub e he) h2
      subst hee
      exact not_mem_alistErase hw.keys_nodup he
    have herase_ne_id : ∀ e ∈ alistErase B.order_lookup id, e.1 ≠ id := by
      intro e he h2
      have hee := huniq_key e (herase_sub e he) h2
      subst hee
      exact not_mem_alistErase hw.keys_nodup he
    have hkeys2 : ((alistErase B.order_lookup id).map Prod.fst).Nodup :=
      ((alistErase_sublist _ _).map Prod.fst).nodup hw.keys_nodup
    have hlh2 : ((alistErase B.order_lookup id).map Prod.snd).Nodup :=
      ((alistErase_sublist _ _).map Prod.snd).nodup hw.lhandles_nodup
    have hlt2 : ∀ e ∈ alistErase B.order_lookup id, e.2 < (B.pool.destroy h).next_slot :=
      fun e he => hw.handles_lt e (herase_sub e he)
    have hmemlt2 : ∀ e ∈ (B.pool.destroy h).mem, e.1 < (B.pool.destroy h).next_slot := by
      intro e he
      exact hw.mem_lt e ((alistErase_sublist _ _).subset he)
    have hmemnd2 : ((B.pool.destroy h).mem.map Prod.fst).Nodup :=
      ((alistErase_sublist _ _).map Prod.fst).nodup hw.mem_nodup
    have halloc2 : ∀ e ∈ alistErase B.order_lookup id,
        (alistFind (B.pool.destroy h).mem e.2).isSome := by
      intro e he
      show (alistFind (alistErase B.pool.mem h) e.2).isSome
      rw [alistFind_alistErase_ne (herase_ne_h e he)]
      exact hw.lookup_alloc e (herase_sub e he)
    have hqlt2 : ∀ e ∈ alistErase B.order_lookup id,
        ((B.pool.destroy h).read e.2).quantity < U64MOD := by
      intro e he
      rw [hread2 e.2 (herase_ne_h e he)]
      exact hw.q_lt e (herase_sub e he)
    cases hbuy : (B.pool.read h).is_buy with
    | true =>
      simp only [hbuy, if_true]
      rw [hbuy] at hfindL hcount_my hcount_other
      simp only [OrderBook.sideFor, if_true, Bool.not_true, Bool.false_eq_true, if_false]
        at hfindL hcount_my hcount_other
      have hbids2 : SideWF B.pool true cmpGT
          (sideRemove (B.pool.read h).price h (B.pool.read h).quantity B.bids) :=
        SideWF.remove lawful_cmpGT hw.bidsWF hfindL hmemL rfl
      have hcount2 : ∀ g, (sideHandles (sideRemove (B.pool.read h).price h
          (B.pool.read h).quantity B.bids)).count g + (if h = g then 1 else 0) =
            (sideHandles B.bids).count g :=
        sideRemove_count hfindL hmemL
      have hnot2 : h ∉ sideHandles (sideRemove (B.pool.read h).price h
          (B.pool.read h).quantity B.bids) := by
        rw [← List.count_eq_zero]
        have := hcount2 h
        rw [if_pos rfl] at this
        omega
      have hnot_asks : h ∉ sideHandles B.asks := by
        rw [← List.count_eq_zero]
        exact hcount_other
      have hbids2p : SideWF (B.pool.destroy h) true cmpGT
          (sideRemove (B.pool.read h).price h (B.pool.read h).quantity B.bids) :=
        hbids2.transport fun g hg => hread2 g (fun heq => hnot2 (heq ▸ hg))
      have hasks2p : SideWF (B.pool.destroy h) false cmpLT B.asks :=
        hw.asksWF.transport fun g hg => hread2 g (fun heq => hnot_asks (heq ▸ hg))
      refine ⟨hbids2p, hasks2p, ?_, hkeys2, hlh2, ?_, ?_, hlt2, hmemlt2, hmemnd2, halloc2, hqlt2⟩
      · rw [List.nodup_iff_count_le_one]
        intro g
        have hc := hcount2 g
        have hold := List.nodup_iff_count_le_one.mp hw.handles_nodup g
        simp only [allHandles, List.count_append] at hold ⊢
        omega
      · intro e he
        have hne := herase_ne_h e he
        have hel := herase_sub e he
        simp only [hread2 e.2 hne]
        obtain ⟨L2, hfindL2, hmemL2⟩ := hw.lookup_to_level e hel
        cases hbuy2 : (B.pool.read e.2).is_buy with
        | true =>
          rw [hbuy2] at hfindL2
          simp only [OrderBook.sideFor, if_true] at hfindL2 ⊢
          by_cases hp2 : (B.pool.read e.2).price = (B.pool.read h).price
          · rw [hp2] at hfindL2 ⊢
            rw [hfindL] at hfindL2
            injection hfindL2 with hfindL2
            subst hfindL2
            have hmem2 : e.2 ∈ L.orders.erase h := (List.mem_erase_of_ne hne).mpr hmemL2
            have hne_nil : ¬(L.orders.erase h).isEmpty := by
              rw [List.isEmpty_iff]
              exact List.ne_nil_of_mem hmem2
            refine ⟨L.remove_order h (B.pool.read h).quantity, ?_, ?_⟩
            · rw [sideRemove_find_self lawful_cmpGT hw.bidsWF.sorted hfindL, if_neg hne_nil]
            · exact hmem2
          · rw [sideRemove_find_ne hp2]
            exact ⟨L2, hfindL2, hmemL2⟩
        | false =>
          rw [hbuy2] at hfindL2
          simp only [OrderBook.sideFor, Bool.false_eq_true, if_false] at hfindL2 ⊢
          exact ⟨L2, hfindL2, hmemL2⟩
      · intro g hg
        have hgh : g ≠ h := by
          intro heq
          subst heq
          simp only [allHandles, List.mem_append] at hg
          rcases hg with hm | hm
          · exact hnot2 hm
          · exact hnot_asks hm
        have hgmem : g ∈ allHandles B := by
          simp only [allHandles, List.mem_append] at hg ⊢
          rcases hg with hm | hm
          · have hpos := List.count_pos_iff.mpr hm
            have hc := hcount2 g
            refine Or.inl (List.count_pos_iff.mp ?_)
            omega
          · exact Or.inr hm
        obtain ⟨id2, hid2⟩ := hw.level_to_lookup g hgmem
        have hid2ne : id2 ≠ id := by
          intro heq
          subst heq
          have := huniq_key _ hid2 rfl
          have hgh2 : g = h := by
            injection this
          exact hgh hgh2
        exact ⟨id2, mem_alistErase_of_ne hid2 hid2ne⟩
    | false =>
      simp only [hbuy, Bool.false_eq_true, if_false]
      rw [hbuy] at hfindL hcount_my hcount_other
      simp only [OrderBook.sideFor, Bool.false_eq_true, if_false, Bool.not_false, if_true]
        at hfindL hcount_my hcount_other
      have hasks2 : SideWF B.pool false cmpLT
          (sideRemove (B.pool.read h).price h (B.pool.read h).quantity B.asks) :=
        SideWF.remove lawful_cmpLT hw.asksWF hfindL hmemL rfl
      have hcount2 : ∀ g, (sideHandles (sideRemove (B.pool.read h).price h
          (B.pool.read h).quantity B.asks)).count g + (if h = g then 1 else 0) =
            (sideHandles B.asks).count g :=
        sideRemove_count hfindL hmemL
      have hnot2 : h ∉ sideHandles (sideRemove (B.pool.read h).price h
          (B.pool.read h).quantity B.asks) := by
        rw [← List.count_eq_zero]
        have := hcount2 h
        rw [if_pos rfl] at this
        omega
      have hnot_bids : h ∉ sideHandles B.bids := by
        rw [← List.count_eq_zero]
        exact hcount_other
      have hasks2p : SideWF (B.pool.destroy h) false cmpLT
          (sideRemove (B.pool.read h).price h (B.pool.read h).quantity B.asks) :=
        hasks2.transport fun g hg => hread2 g (fun heq => hnot2 (heq ▸ hg))
      have hbids2p : SideWF (B.pool.destroy h) true cmpGT B.bids :=
        hw.bidsWF.transport fun g hg => hread2 g (fun heq => hnot_bids (heq ▸ hg))
      refine ⟨hbids2p, hasks2p, ?_, hkeys2, hlh2, ?_, ?_, hlt2, hmemlt2, hmemnd2, halloc2, hqlt2⟩
      · rw [List.nodup_iff_count_le_one]
        intro g
        have hc := hcount2 g
        have hold := List.nodup_iff_count_le_one.mp hw.handles_nodup g
        simp only [allHandles, List.count_append] at hold ⊢
        omega
      · intro e he
        have hne := herase_ne_h e he
        have hel := herase_sub e he
        simp only [hread2 e.2 hne]
        obtain ⟨L2, hfindL2, hmemL2⟩ := hw.lookup_to_level e hel
        cases hbuy2 : (B.pool.read e.2).is_buy with
        | false =>
          rw [hbuy2] at hfindL2
          simp only [OrderBook.sideFor, Bool.false_eq_true, if_false] at hfindL2 ⊢
          by_cases hp2 : (B.pool.read e.2).price = (B.pool.read h).price
          · rw [hp2] at hfindL2 ⊢
            rw [hfindL] at hfindL2
            injection hfindL2 with hfindL2
            subst hfindL2
            have hmem2 : e.2 ∈ L.orders.erase h := (List.mem_erase_of_ne hne).mpr hmemL2
            have hne_nil : ¬(L.orders.erase h).isEmpty := by
              rw [List.isEmpty_iff]
              exact List.ne_nil_of_mem hmem2
            refine ⟨L.remove_order h (B.pool.read h).quantity, ?_, ?_⟩
            · rw [sideRemove_find_self lawful_cmpLT hw.asksWF.sorted hfindL, if_neg hne_nil]
            · exact hmem2
          · rw [sideRemove_find_ne hp2]
            exact ⟨L2, hfindL2, hmemL2⟩
        | true =>
          rw [hbuy2] at hfindL2
          simp only [OrderBook.sideFor, if_true] at hfindL2 ⊢
          exact ⟨L2, hfindL2, hmemL2⟩
      · intro g hg
        have hgh : g ≠ h := by
          intro heq
          subst heq
          simp only [allHandles, List.mem_append] at hg
          rcases hg with hm | hm
          · exact hnot_bids hm
          · exact hnot2 hm
        have hgmem : g ∈ allHandles B := by
          simp only [allHandles, List.mem_append] at hg ⊢
          rcases hg with hm | hm
          · exact Or.inl hm
          · have hpos := List.count_pos_iff.mpr hm
            have hc := hcount2 g
            refine Or.inr (List.count_pos_iff.mp ?_)
            omega
        obtain ⟨id2, hid2⟩ := hw.level_to_lookup g hgmem
        have hid2ne : id2 ≠ id := by
          intro heq
          subst heq
          have := huniq_key _ hid2 rfl
          have hgh2 : g = h := by
            injection this
          exact hgh hgh2
        exact ⟨id2, mem_alistErase_of_ne hid2 hid2ne⟩

theorem OrderBook.WF.amend {B : OrderBook} (hw : B.WF) (id : Nat) (np : Int) {nq : Nat}
    (hq : nq < U64MOD) : (B.amend_order id np nq).2.WF := by
  cases hfind : alistFind B.order_lookup id with
  | none =>
    rw [OrderBook.amend_order_none hfind]
    exact hw
  | some h =>
    have hentry : (id, h) ∈ B.order_lookup := alistFind_some_mem hfind
    obtain ⟨L, hfindL, hmemL, honceL, hcount_my, hcount_other⟩ := hw.live_node_facts hentry
    have halloc_h : (alistFind B.pool.mem h).isSome := hw.lookup_alloc (id, h) hentry
    have huniq_handle : ∀ e ∈ B.order_lookup, e.2 = h → e = (id, h) := by
      intro e he h2
      exact List.inj_on_of_nodup_map hw.lhandles_nodup he hentry (by simpa using h2)
    by_cases hpe : (B.pool.read h).price ≠ np
    · rw [OrderBook.amend_order_eq_price hfind hpe]
      set o2 : Order := { B.pool.read h with price := np, quantity := nq } with ho2
      have hread2h : (B.pool.write h
          o2).read h =
            o2 :=
        B.pool.read_write_self h _ halloc_h
      have hread2g : ∀ g, g ≠ h → (B.pool.write h
          o2).read g = B.pool.read g :=
        fun g hg => B.pool.read_write_ne h _ hg
      have hmemlt2 : ∀ e ∈ (B.pool.write h
          o2).mem,
          e.1 < (B.pool.write h o2).next_slot := by
        intro e he
        have : e.1 ∈ (B.pool.write h
            o2).mem.map Prod.fst :=
          List.mem_map.mpr ⟨e, he, rfl⟩
        rw [MemoryPool.write_mem_fst] at this
        obtain ⟨e2, he2, he2e⟩ := List.mem_map.mp this
        show e.1 < B.pool.next_slot
        rw [← he2e]
        exact hw.mem_lt e2 he2
      have hmemnd2 : ((B.pool.write h
          o2).mem.map Prod.fst).Nodup := by
        rw [MemoryPool.write_mem_fst]
        exact hw.mem_nodup
      have halloc2 : ∀ e ∈ B.order_lookup, (alistFind (B.pool.write h
          o2).mem e.2).isSome := by
        intro e he
        by_cases heh : e.2 = h
        · rw [heh]
          show (alistFind (alistSet B.pool.mem h _) h).isSome
          rw [alistFind_alistSet_self halloc_h]
          simp
        · show (alistFind (alistSet B.pool.mem h _) e.2).isSome
          rw [alistFind_alistSet_ne heh]
          exact hw.lookup_alloc e he
      have hqlt2 : ∀ e ∈ B.order_lookup, ((B.pool.write h
          o2).read e.2).quantity < U64MOD := by
        intro e he
        by_cases heh : e.2 = h
        · rw [heh, hread2h, ho2]
          exact hq
        · rw [hread2g e.2 heh]
          exact hw.q_lt e he
      cases hbuy : (B.pool.read h).is_buy with
      | true =>
        simp only [hbuy, if_true]
        rw [hbuy] at hfindL hcount_my hcount_other
        simp only [OrderBook.sideFor, if_true, Bool.not_true, Bool.false_eq_true, if_false]
          at hfindL hcount_my hcount_other
        have hcount2 : ∀ g, (sideHandles (sideRemove (B.pool.read h).price h
            (B.pool.read h).quantity B.bids)).count g + (if h = g then 1 else 0) =
              (sideHandles B.bids).count g :=
          sideRemove_count hfindL hmemL
        have hnot2 : h ∉ sideHandles (sideRemove (B.pool.read h).price h
            (B.pool.read h).quantity B.bids) := by
          rw [← List.count_eq_zero]
          have := hcount2 h
          rw [if_pos rfl] at this
          omega
        have hnot_asks : h ∉ sideHandles B.asks := by
          rw [← List.count_eq_zero]
          exact hcount_other
        have hbids2 : SideWF B.pool true cmpGT
            (sideRemove (B.pool.read h).price h (B.pool.read h).quantity B.bids) :=
          SideWF.remove lawful_cmpGT hw.bidsWF hfindL hmemL rfl
        have hbids2p : SideWF (B.pool.write h
            o2) true cmpGT
            (sideRemove (B.pool.read h).price h (B.pool.read h).quantity B.bids) :=
          hbids2.transport fun g hg => hread2g g (fun heq => hnot2 (heq ▸ hg))
        have hasks2p : SideWF (B.pool.write h
            o2) false cmpLT B.asks :=
          hw.asksWF.transport fun g hg => hread2g g (fun heq => hnot_asks (heq ▸ hg))
        have hbids3 : SideWF (B.pool.write h
            o2) true cmpGT
            (mapInsertWith cmpGT (fun M => M.add_order h nq) np
              (sideRemove (B.pool.read h).price h (B.pool.read h).quantity B.bids)) :=
          SideWF.insert lawful_cmpGT hbids2p hnot2
            (by rw [hread2h, ho2]; exact hbuy) (by rw [hread2h, ho2]) (by rw [hread2h, ho2])
        have hcount3 : ∀ g, (sideHandles (mapInsertWith cmpGT (fun M => M.add_order h nq) np
            (sideRemove (B.pool.read h).price h (B.pool.read h).quantity B.bids))).count g =
              (sideHandles (sideRemove (B.pool.read h).price h (B.pool.read h).quantity
                B.bids)).count g + (if h = g then 1 else 0) :=
          fun g => sideHandles_insert_count g
        refine ⟨hbids3, hasks2p, ?_, hw.keys_nodup, hw.lhandles_nodup, ?_, ?_,
          fun e he => hw.handles_lt e he, hmemlt2, hmemnd2, halloc2, hqlt2⟩
        · rw [List.nodup_iff_count_le_one]
          intro g
          have hc2 := hcount2 g
          have hc3 := hcount3 g
          have hold := List.nodup_iff_count_le_one.mp hw.handles_nodup g
          simp only [allHandles, List.count_append] at hold ⊢
          omega
        · intro e he
          by_cases heh : e.2 = h
          · have hee := huniq_handle e he heh
            rw [heh, hread2h]
            simp only [ho2, hbuy, OrderBook.sideFor, if_true]
            refine ⟨(levelAtD (sideRemove (B.pool.read h).price h (B.pool.read h).quantity
              B.bids) np).add_order h nq,
              mapInsertWith_find_self lawful_cmpGT (sideRemove_sorted hw.bidsWF.sorted), ?_⟩
            simp [PriceLevelQueue.add_order]
          · rw [hread2g e.2 heh]
            obtain ⟨L2, hfindL2, hmemL2⟩ := hw.lookup_to_level e he
            cases hbuy2 : (B.pool.read e.2).is_buy with
            | true =>
              rw [hbuy2] at hfindL2
              simp only [OrderBook.sideFor, if_true] at hfindL2 ⊢
              by_cases hp2 : (B.pool.read e.2).price = np
              · rw [hp2] at hfindL2 ⊢
                have hfind_rm : mapFind (sideRemove (B.pool.read h).price h
                    (B.pool.read h).quantity B.bids) np = some L2 := by
                  rw [sideRemove_find_ne (fun heq => hpe heq.symm)]
                  exact hfindL2
                refine ⟨(levelAtD (sideRemove (B.pool.read h).price h (B.pool.read h).quantity
                  B.bids) np).add_order h nq,
                  mapInsertWith_find_self lawful_cmpGT (sideRemove_sorted hw.bidsWF.sorted), ?_⟩
                simp only [levelAtD, hfind_rm, Option.getD_some, PriceLevelQueue.add_order]
                exact List.mem_append.mpr (Or.inl hmemL2)
              · rw [mapInsertWith_find_ne hp2]
                by_cases hp3 : (B.pool.read e.2).price = (B.pool.read h).price
                · rw [hp3] at hfindL2 ⊢
                  rw [hfindL] at hfindL2
                  injection hfindL2 with hfindL2
                  subst hfindL2
                  have hmem2 : e.2 ∈ L.orders.erase h := (List.mem_erase_of_ne heh).mpr hmemL2
                  have hne_nil : ¬(L.orders.erase h).isEmpty := by
                    rw [List.isEmpty_iff]
                    exact List.ne_nil_of_mem hmem2
                  refine ⟨L.remove_order h (B.pool.read h).quantity, ?_, hmem2⟩
                  rw [sideRemove_find_self lawful_cmpGT hw.bidsWF.sorted hfindL, if_neg hne_nil]
                · rw [sideRemove_find_ne hp3]
                  exact ⟨L2, hfindL2, hmemL2⟩
            | false =>
              rw [hbuy2] at hfindL2
              simp only [OrderBook.sideFor, Bool.false_eq_true, if_false] at hfindL2 ⊢
              exact ⟨L2, hfindL2, hmemL2⟩
        · intro g hg
          by_cases hgh : g = h
          · subst hgh
            exact ⟨id, hentry⟩
          · have hgmem : g ∈ allHandles B := by
              simp only [allHandles, List.mem_append] at hg ⊢
              rcases hg with hm | hm
              · have hpos := List.count_pos_iff.mpr hm
                have hc2 := hcount2 g
                have hc3 := hcount3 g
                have hne2 : ¬(h = g) := fun heq => hgh heq.symm
                rw [if_neg hne2] at hc2 hc3
                refine Or.inl (List.count_pos_iff.mp ?_)
                omega
              · exact Or.inr hm
            exact hw.level_to_lookup g hgmem
      | false =>
        simp only [hbuy, Bool.false_eq_true, if_false]
        rw [hbuy] at hfindL hcount_my hcount_other
        simp only [OrderBook.sideFor, Bool.false_eq_true, if_false, Bool.not_false, if_true]
          at hfindL hcount_my hcount_other
        have hcount2 : ∀ g, (sideHandles (sideRemove (B.pool.read h).price h
            (B.pool.read h).quantity B.asks)).count g + (if h = g then 1 else 0) =
              (sideHandles B.asks).count g :=
          sideRemove_count hfindL hmemL
        have hnot2 : h ∉ sideHandles (sideRemove (B.pool.read h).price h
            (B.pool.read h).quantity B.asks) := by
          rw [← List.count_eq_zero]
          have := hcount2 h
          rw [if_pos rfl] at this
          omega
        have hnot_bids : h ∉ sideHandles B.bids := by
          rw [← List.count_eq_zero]
          exact hcount_other
        have hasks2 : SideWF B.pool false cmpLT
            (sideRemove (B.pool.read h).price h (B.pool.read h).quantity B.asks) :=
          SideWF.remove lawful_cmpLT hw.asksWF hfindL hmemL rfl
        have hasks2p : SideWF (B.pool.write h
            o2) false cmpLT
            (sideRemove (B.pool.read h).price h (B.pool.read h).quantity B.asks) :=
          hasks2.transport fun g hg => hread2g g (fun heq => hnot2 (heq ▸ hg))
        have hbids2p : SideWF (B.pool.write h
            o2) true cmpGT B.bids :=
          hw.bidsWF.transport fun g hg => hread2g g (fun heq => hnot_bids (heq ▸ hg))
        have hasks3 : SideWF (B.pool.write h
            o2) false cmpLT
            (mapInsertWith cmpLT (fun M => M.add_order h nq) np
              (sideRemove (B.pool.read h).price h (B.pool.read h).quantity B.asks)) :=
          SideWF.insert lawful_cmpLT hasks2p hnot2
            (by rw [hread2h, ho2]; exact hbuy) (by rw [hread2h, ho2]) (by rw [hread2h, ho2])
        have hcount3 : ∀ g, (sideHandles (mapInsertWith cmpLT (fun M => M.add_order h nq) np
            (sideRemove (B.pool.read h).price h (B.pool.read h).quantity B.asks))).count g =
              (sideHandles (sideRemove (B.pool.read h).price h (B.pool.read h).quantity
                B.asks)).count g + (if h = g then 1 else 0) :=
          fun g => sideHandles_insert_count g
        refine ⟨hbids2p, hasks3, ?_, hw.keys_nodup, hw.lhandles_nodup, ?_, ?_,
          fun e he => hw.handles_lt e he, hmemlt2, hmemnd2, halloc2, hqlt2⟩
        · rw [List.nodup_iff_count_le_one]
          intro g
          have hc2 := hcount2 g
          have hc3 := hcount3 g
          have hold := List.nodup_iff_count_le_one.mp hw.handles_nodup g
          simp only [allHandles, List.count_append] at hold ⊢
          omega
        · intro e he
          by_cases heh : e.2 = h
          · have hee := huniq_handle e he heh
            rw [heh, hread2h]
            simp only [ho2, hbuy, OrderBook.sideFor, Bool.false_eq_true, if_false]
            refine ⟨(levelAtD (sideRemove (B.pool.read h).price h (B.pool.read h).quantity
              B.asks) np).add_order h nq,
              mapInsertWith_find_self lawful_cmpLT (sideRemove_sorted hw.asksWF.sorted), ?_⟩
            simp [PriceLevelQueue.add_order]
          · rw [hread2g e.2 heh]
            obtain ⟨L2, hfindL2, hmemL2⟩ := hw.lookup_to_level e he
            cases hbuy2 : (B.pool.read e.2).is_buy with
            | false =>
              rw [hbuy2] at hfindL2
              simp only [OrderBook.sideFor, Bool.false_eq_true, if_false] at hfindL2 ⊢
              by_cases hp2 : (B.pool.read e.2).price = np
              · rw [hp2] at hfindL2 ⊢
                have hfind_rm : mapFind (sideRemove (B.pool.read h).price h
                    (B.pool.read h).quantity B.asks) np = some L2 := by
                  rw [sideRemove_find_ne (fun heq => hpe heq.symm)]
                  exact hfindL2
                refine ⟨(levelAtD (sideRemove (B.pool.read h).price h (B.pool.read h).quantity
                  B.asks) np).add_order h nq,
                  mapInsertWith_find_self lawful_cmpLT (sideRemove_sorted hw.asksWF.sorted), ?_⟩
                simp only [levelAtD, hfind_rm, Option.getD_some, PriceLevelQueue.add_order]
                exact List.mem_append.mpr (Or.inl hmemL2)
              · rw [mapInsertWith_find_ne hp2]
                by_cases hp3 : (B.pool.read e.2).price = (B.pool.read h).price
                · rw [hp3] at hfindL2 ⊢
                  rw [hfindL] at hfindL2
                  injection hfindL2 with hfindL2
                  subst hfindL2
                  have hmem2 : e.2 ∈ L.orders.erase h := (List.mem_erase_of_ne heh).mpr hmemL2
                  have hne_nil : ¬(L.orders.erase h).isEmpty := by
                    rw [List.isEmpty_iff]
                    exact List.ne_nil_of_mem hmem2
                  refine ⟨L.remove_order h (B.pool.read h).quantity, ?_, hmem2⟩
                  rw [sideRemove_find_self lawful_cmpLT hw.asksWF.sorted hfindL, if_neg hne_nil]
                · rw [sideRemove_find_ne hp3]
                  exact ⟨L2, hfindL2, hmemL2⟩
            | true =>
              rw [hbuy2] at hfindL2
              simp only [OrderBook.sideFor, if_true] at hfindL2 ⊢
              exact ⟨L2, hfindL2, hmemL2⟩
        · intro g hg
          by_cases hgh : g = h
          · subst hgh
            exact ⟨id, hentry⟩
          · have hgmem : g ∈ allHandles B := by
              simp only [allHandles, List.mem_append] at hg ⊢
              rcases hg with hm | hm
              · exact Or.inl hm
              · have hpos := List.count_pos_iff.mpr hm
                have hc2 := hcount2 g
                have hc3 := hcount3 g
                have hne2 : ¬(h = g) := fun heq => hgh heq.symm
                rw [if_neg hne2] at hc2 hc3
                refine Or.inr (List.count_pos_iff.mp ?_)
                omega
            exact hw.level_to_lookup g hgmem
    · push_neg at hpe
      by_cases hqe : (B.pool.read h).quantity ≠ nq
      · rw [← hpe]
        cases hbuy : (B.pool.read h).is_buy with
        | true =>
          rw [hbuy] at hfindL hcount_my hcount_other
          simp only [OrderBook.sideFor, if_true, Bool.not_true, Bool.false_eq_true, if_false]
            at hfindL hcount_my hcount_other
          rw [OrderBook.amend_order_eq_qty_bid hfind hqe hbuy hfindL]
          have hread2h : (B.pool.write h { B.pool.read h with quantity := nq }).read h =
              { B.pool.read h with quantity := nq } :=
            B.pool.read_write_self h _ halloc_h
          have hread2g : ∀ g, g ≠ h →
              (B.pool.write h { B.pool.read h with quantity := nq }).read g = B.pool.read g :=
            fun g hg => B.pool.read_write_ne h _ hg
          have hnot_asks : h ∉ sideHandles B.asks := by
            rw [← List.count_eq_zero]
            exact hcount_other
          have honly : ∀ e ∈ B.bids, e.1 ≠ (B.pool.read h).price → h ∉ e.2.orders := by
            intro e he hne hmem
            have h2 := sideHandles_two_entries (mapFind_mem hfindL) he
              (fun heq => hne heq.symm) hmemL hmem
            omega
          have hbids2 : SideWF (B.pool.write h { B.pool.read h with quantity := nq }) true cmpGT
              (sideUpdateQty (B.pool.read h).price (B.pool.read h).quantity nq B.bids) :=
            SideWF.update lawful_cmpGT hw.bidsWF hfindL hmemL honceL honly
              (by rw [hread2h]) (by rw [hread2h]) (by rw [hread2h]) hread2g rfl
          have hasks2p : SideWF (B.pool.write h { B.pool.read h with quantity := nq })
              false cmpLT B.asks :=
            hw.asksWF.transport fun g hg => hread2g g (fun heq => hnot_asks (heq ▸ hg))
          have hhandles : sideHandles (sideUpdateQty (B.pool.read h).price
              (B.pool.read h).quantity nq B.bids) = sideHandles B.bids :=
            sideUpdateQty_handles
          refine ⟨hbids2, hasks2p, ?_, hw.keys_nodup, hw.lhandles_nodup, ?_, ?_,
            fun e he => hw.handles_lt e he, ?_, ?_, ?_, ?_⟩
          · simp only [allHandles, hhandles]
            exact hw.handles_nodup
          · intro e he
            by_cases heh : e.2 = h
            · rw [heh, hread2h]
              simp only [hbuy, OrderBook.sideFor, if_true]
              refine ⟨L.update_quantity (B.pool.read h).quantity nq,
                sideUpdateQty_find_self hfindL, ?_⟩
              simpa [PriceLevelQueue.update_quantity] using hmemL
            · rw [hread2g e.2 heh]
              obtain ⟨L2, hfindL2, hmemL2⟩ := hw.lookup_to_level e he
              cases hbuy2 : (B.pool.read e.2).is_buy with
              | true =>
                rw [hbuy2] at hfindL2
                simp only [OrderBook.sideFor, if_true] at hfindL2 ⊢
                by_cases hp2 : (B.pool.read e.2).price = (B.pool.read h).price
                · rw [hp2] at hfindL2 ⊢
                  rw [hfindL] at hfindL2
                  injection hfindL2 with hfindL2
                  subst hfindL2
                  refine ⟨L.update_quantity (B.pool.read h).quantity nq,
                    sideUpdateQty_find_self hfindL, ?_⟩
                  simpa [PriceLevelQueue.update_quantity] using hmemL2
                · rw [sideUpdateQty_find_ne hp2]
                  exact ⟨L2, hfindL2, hmemL2⟩
              | false =>
                rw [hbuy2] at hfindL2
                simp only [OrderBook.sideFor, Bool.false_eq_true, if_false] at hfindL2 ⊢
                exact ⟨L2, hfindL2, hmemL2⟩
          · intro g hg
            simp only [allHandles, hhandles] at hg
            exact hw.level_to_lookup g hg
          · intro e he
            have : e.1 ∈ (B.pool.write h { B.pool.read h with quantity := nq }).mem.map
                Prod.fst := List.mem_map.mpr ⟨e, he, rfl⟩
            rw [MemoryPool.write_mem_fst] at this
            obtain ⟨e2, he2, he2e⟩ := List.mem_map.mp this
            show e.1 < B.pool.next_slot
            rw [← he2e]
            exact hw.mem_lt e2 he2
          · rw [MemoryPool.write_mem_fst]
            exact hw.mem_nodup
          · intro e he
            by_cases heh : e.2 = h
            · rw [heh]
              show (alistFind (alistSet B.pool.mem h _) h).isSome
              rw [alistFind_alistSet_self halloc_h]
              simp
            · show (alistFind (alistSet B.pool.mem h _) e.2).isSome
              rw [alistFind_alistSet_ne heh]
              exact hw.lookup_alloc e he
          · intro e he
            by_cases heh : e.2 = h
            · rw [heh, hread2h]
              exact hq
            · rw [hread2g e.2 heh]
              exact hw.q_lt e he
        | false =>
          rw [hbuy] at hfindL hcount_my hcount_other
          simp only [OrderBook.sideFor, Bool.false_eq_true, if_false, Bool.not_false, if_true]
            at hfindL hcount_my hcount_other
          rw [OrderBook.amend_order_eq_qty_ask hfind hqe hbuy hfindL]
          have hread2h : (B.pool.write h { B.pool.read h with quantity := nq }).read h =
              { B.pool.read h with quantity := nq } :=
            B.pool.read_write_self h _ halloc_h
          have hread2g : ∀ g, g ≠ h →
              (B.pool.write h { B.pool.read h with quantity := nq }).read g = B.pool.read g :=
            fun g hg => B.pool.read_write_ne h _ hg
          have hnot_bids : h ∉ sideHandles B.bids := by
            rw [← List.count_eq_zero]
            exact hcount_other
          have honly : ∀ e ∈ B.asks, e.1 ≠ (B.pool.read h).price → h ∉ e.2.orders := by
            intro e he hne hmem
            have h2 := sideHandles_two_entries (mapFind_mem hfindL) he
              (fun heq => hne heq.symm) hmemL hmem
            omega
          have hasks2 : SideWF (B.pool.write h { B.pool.read h with quantity := nq }) false cmpLT
              (sideUpdateQty (B.pool.read h).price (B.pool.read h).quantity nq B.asks) :=
            SideWF.update lawful_cmpLT hw.asksWF hfindL hmemL honceL honly
              (by rw [hread2h]) (by rw [hread2h]) (by rw [hread2h]) hread2g rfl
          have hbids2p : SideWF (B.pool.write h { B.pool.read h with quantity := nq })
              true cmpGT B.bids :=
            hw.bidsWF.transport fun g hg => hread2g g (fun heq => hnot_bids (heq ▸ hg))
          have hhandles : sideHandles (sideUpdateQty (B.pool.read h).price
              (B.pool.read h).quantity nq B.asks) = sideHandles B.asks :=
            sideUpdateQty_handles
          refine ⟨hbids2p, hasks2, ?_, hw.keys_nodup, hw.lhandles_nodup, ?_, ?_,
            fun e he => hw.handles_lt e he, ?_, ?_, ?_, ?_⟩
          · simp only [allHandles, hhandles]
            exact hw.handles_nodup
          · intro e he
            by_cases heh : e.2 = h
            · rw [heh, hread2h]
              simp only [hbuy, OrderBook.sideFor, Bool.false_eq_true, if_false]
              refine ⟨L.update_quantity (B.pool.read h).quantity nq,
                sideUpdateQty_find_self hfindL, ?_⟩
              simpa [PriceLevelQueue.update_quantity] using hmemL
            · rw [hread2g e.2 heh]
              obtain ⟨L2, hfindL2, hmemL2⟩ := hw.lookup_to_level e he
              cases hbuy2 : (B.pool.read e.2).is_buy with
              | false =>
                rw [hbuy2] at hfindL2
                simp only [OrderBook.sideFor, Bool.false_eq_true, if_false] at hfindL2 ⊢
                by_cases hp2 : (B.pool.read e.2).price = (B.pool.read h).price
                · rw [hp2] at hfindL2 ⊢
                  rw [hfindL] at hfindL2
                  injection hfindL2 with hfindL2
                  subst hfindL2
                  refine ⟨L.update_quantity (B.pool.read h).quantity nq,
                    sideUpdateQty_find_self hfindL, ?_⟩
                  simpa [PriceLevelQueue.update_quantity] using hmemL2
                · rw [sideUpdateQty_find_ne hp2]
                  exact ⟨L2, hfindL2, hmemL2⟩
              | true =>
                rw [hbuy2] at hfindL2
                simp only [OrderBook.sideFor, if_true] at hfindL2 ⊢
                exact ⟨L2, hfindL2, hmemL2⟩
          · intro g hg
            simp only [allHandles, hhandles] at hg
            exact hw.level_to_lookup g hg
          · intro e he
            have : e.1 ∈ (B.pool.write h { B.pool.read h with quantity := nq }).mem.map
                Prod.fst := List.mem_map.mpr ⟨e, he, rfl⟩
            rw [MemoryPool.write_mem_fst] at this
            obtain ⟨e2, he2, he2e⟩ := List.mem_map.mp this
            show e.1 < B.pool.next_slot
            rw [← he2e]
            exact hw.mem_lt e2 he2
          · rw [MemoryPool.write_mem_fst]
            exact hw.mem_nodup
          · intro e he
            by_cases heh : e.2 = h
            · rw [heh]
              show (alistFind (alistSet B.pool.mem h _) h).isSome
              rw [alistFind_alistSet_self halloc_h]
              simp
            · show (alistFind (alistSet B.pool.mem h _) e.2).isSome
              rw [alistFind_alistSet_ne heh]
              exact hw.lookup_alloc e he
          · intro e he
            by_cases heh : e.2 = h
            · rw [heh, hread2h]
              exact hq
            · rw [hread2g e.2 heh]
              exact hw.q_lt e he
      · push_neg at hqe
        rw [OrderBook.amend_order_eq_noop hfind hpe hqe]
        exact hw

/-- Every reachable book state satisfies the cross-index invariant. -/
theorem Reachable.wf {B : OrderBook} (h : Reachable B) : B.WF := by
  induction h with
  | empty => exact OrderBook.WF.emptyB
  | add o _ hq ih => exact ih.add hq
  | cancel order_id _ ih => exact ih.cancel order_id
  | amend order_id np nq _ hq ih => exact ih.amend order_id np hq

/-! ## Concrete sample states for the witnesses -/

/-- A sample buy order (id 1, price 1000 ticks, quantity 5). -/
def wOrder1 : Order := ⟨1, true, 1000, 5, 100⟩

/-- A second buy order at the same price. -/
def wOrder2 : Order := ⟨2, true, 1000, 7, 200⟩

/-- A sample sell order. -/
def wOrder3 : Order := ⟨3, false, 1010, 4, 300⟩

/-- A book holding only `wOrder1`. -/
def wBook1 : OrderBook := OrderBook.emptyB.add_order wOrder1

/-- A book holding two bids at one price and one ask. -/
def wBook3 : OrderBook :=
  ((OrderBook.emptyB.add_order wOrder1).add_order wOrder2).add_order wOrder3

theorem wBook1_reachable : Reachable wBook1 :=
  Reachable.add wOrder1 Reachable.empty (by decide)

theorem wBook3_reachable : Reachable wBook3 :=
  Reachable.add wOrder3
    (Reachable.add wOrder2
      (Reachable.add wOrder1 Reachable.empty (by decide)) (by decide)) (by decide)

/-! ## Claim C1: the cross-index consistency invariant -/

/-- The three-part cross-index invariant asserted by claim C1: (1) an order id
in the index has its node in exactly one price-level queue, on the node's own
side under the node's own price, and every linked node belongs to an indexed
id; (2) every cached level total equals the (`uint64_t`, i.e. mod `2 ^ 64`)
sum of its nodes' quantities; (3) all levels present in a side index are
non-empty, and `get_order_count` equals the total number of linked nodes. -/
def C1Invariant (B : OrderBook) : Prop :=
  (∀ e ∈ B.order_lookup,
      (allHandles B).count e.2 = 1 ∧
      ∃ L, mapFind (B.sideFor (B.pool.read e.2).is_buy) (B.pool.read e.2).price = some L ∧
        e.2 ∈ L.orders) ∧
  (∀ g ∈ allHandles B, ∃ id, (id, g) ∈ B.order_lookup) ∧
  (∀ e ∈ B.bids, e.2.total_quantity = levelSum B.pool e.2 % U64MOD) ∧
  (∀ e ∈ B.asks, e.2.total_quantity = levelSum B.pool e.2 % U64MOD) ∧
  (∀ e ∈ B.bids, e.2.orders ≠ []) ∧
  (∀ e ∈ B.asks, e.2.orders ≠ []) ∧
  B.get_order_count = (sideHandles B.bids).length + (sideHandles B.asks).length

/-- Claim C1: in every state reachable by any sequence of `add_order`,
`cancel_order` and `amend_order` calls from an empty book, an order id is in
the order index iff its node sits in exactly one price-level queue (on the
side and under the price stored in the node), every level's cached
`total_quantity` equals the sum of its nodes' quantities (as `uint64_t`
values, i.e. modulo `2 ^ 64`), every price present in `bids` or `asks` maps
to a non-empty queue, and `order_count()` equals the total number of nodes
over all levels of both sides. -/
theorem c1_cross_index_invariant {B : OrderBook} (hB : Reachable B) : C1Invariant B := by
  have hw := hB.wf
  refine ⟨?_, hw.level_to_lookup, fun e he => (hw.bidsWF.totals e he),
    fun e he => (hw.asksWF.totals e he), hw.bidsWF.nonempty, hw.asksWF.nonempty, ?_⟩
  · intro e he
    refine ⟨List.count_eq_one_of_mem hw.handles_nodup (hw.handle_in_all he), ?_⟩
    exact hw.lookup_to_level e he
  · have hsub1 : B.order_lookup.map Prod.snd ⊆ allHandles B := by
      intro g hg
      obtain ⟨e, he, hge⟩ := List.mem_map.mp hg
      exact hge ▸ hw.handle_in_all he
    have hsub2 : allHandles B ⊆ B.order_lookup.map Prod.snd := by
      intro g hg
      obtain ⟨id, hid⟩ := hw.level_to_lookup g hg
      exact List.mem_map.mpr ⟨(id, g), hid, rfl⟩
    have hperm : (B.order_lookup.map Prod.snd).Perm (allHandles B) :=
      (hw.lhandles_nodup.subperm hsub1).antisymm (hw.handles_nodup.subperm hsub2)
    have hlen := hperm.length_eq
    rw [List.length_map] at hlen
    show B.order_lookup.length = _
    rw [hlen]
    exact List.length_append _ _

/-- Concrete instantiation of claim C1's theorem on a three-order book. -/
theorem c1_witness : C1Invariant wBook3 := c1_cross_index_invariant wBook3_reachable

/-! ## Claims C2 and C9: quantity-only amends -/

/-- Shared core of the quantity-only amend paths: on a well-formed book, a
quantity-only amend of a live order succeeds, writes the new quantity into
the node, leaves the order index untouched, updates the level total in
place, and leaves every FIFO of both sides unchanged. -/
theorem amend_qty_spec {B : OrderBook} (hw : B.WF) {id h q : Nat}
    (hfind : alistFind B.order_lookup id = some h)
    (hne : (B.pool.read h).quantity ≠ q) :
    (B.amend_order id (B.pool.read h).price q).1 = true ∧
    ((B.amend_order id (B.pool.read h).price q).2.pool.read h).quantity = q ∧
    (B.amend_order id (B.pool.read h).price q).2.order_lookup = B.order_lookup ∧
    (∃ L L2, mapFind (B.sideFor (B.pool.read h).is_buy) (B.pool.read h).price = some L ∧
       mapFind ((B.amend_order id (B.pool.read h).price q).2.sideFor (B.pool.read h).is_buy)
         (B.pool.read h).price = some L2 ∧
       L2.orders = L.orders ∧ h ∈ L2.orders ∧
       L2.total_quantity = uadd (usub L.total_quantity (B.pool.read h).quantity) q) ∧
    (B.amend_order id (B.pool.read h).price q).2.bids.map (fun e => (e.1, e.2.orders)) =
      B.bids.map (fun e => (e.1, e.2.orders)) ∧
    (B.amend_order id (B.pool.read h).price q).2.asks.map (fun e => (e.1, e.2.orders)) =
      B.asks.map (fun e => (e.1, e.2.orders)) := by
  have hentry : (id, h) ∈ B.order_lookup := alistFind_some_mem hfind
  obtain ⟨L, hfindL, hmemL, honceL, hcount_my, hcount_other⟩ := hw.live_node_facts hentry
  have halloc_h : (alistFind B.pool.mem h).isSome := hw.lookup_alloc (id, h) hentry
  have hread2h : (B.pool.write h { B.pool.read h with quantity := q }).read h =
      { B.pool.read h with quantity := q } :=
    B.pool.read_write_self h _ halloc_h
  cases hbuy : (B.pool.read h).is_buy with
  | true =>
    rw [hbuy] at hfindL
    simp only [OrderBook.sideFor, if_true] at hfindL
    rw [OrderBook.amend_order_eq_qty_bid hfind hne hbuy hfindL]
    refine ⟨rfl, by rw [hread2h], rfl, ?_, ?_, rfl⟩
    · refine ⟨L, L.update_quantity (B.pool.read h).quantity q, ?_, ?_, rfl, hmemL, rfl⟩
      · simp only [hbuy, OrderBook.sideFor, if_true]
        exact hfindL
      · simp only [hbuy, OrderBook.sideFor, if_true]
        exact sideUpdateQty_find_self hfindL
    · exact sideUpdateQty_proj
  | false =>
    rw [hbuy] at hfindL
    simp only [OrderBook.sideFor, Bool.false_eq_true, if_false] at hfindL
    rw [OrderBook.amend_order_eq_qty_ask hfind hne hbuy hfindL]
    refine ⟨rfl, by rw [hread2h], rfl, ?_, rfl, ?_⟩
    · refine ⟨L, L.update_quantity (B.pool.read h).quantity q, ?_, ?_, rfl, hmemL, rfl⟩
      · simp only [hbuy, OrderBook.sideFor, Bool.false_eq_true, if_false]
        exact hfindL
      · simp only [hbuy, OrderBook.sideFor, Bool.false_eq_true, if_false]
        exact sideUpdateQty_find_self hfindL
    · exact sideUpdateQty_proj

/-- The conclusion of claim C2 for a book `B`, a live order with id `id`,
node handle `h` and contents `o`, amended to quantity `q`. -/
def C2Concl (B : OrderBook) (id h : Nat) (o : Order) (q : Nat) : Prop :=
  (B.amend_order id o.price q).1 = true ∧
  ((B.amend_order id o.price q).2.pool.read h).quantity = q ∧
  (B.amend_order id o.price q).2.order_lookup = B.order_lookup ∧
  (∃ L L2, mapFind (B.sideFor o.is_buy) o.price = some L ∧
     mapFind ((B.amend_order id o.price q).2.sideFor o.is_buy) o.price = some L2 ∧
     L2.orders = L.orders ∧
     (L2.total_quantity + o.quantity) % U64MOD = (L.total_quantity + q) % U64MOD) ∧
  (B.amend_order id o.price q).2.bids.map (fun e => (e.1, e.2.orders)) =
    B.bids.map (fun e => (e.1, e.2.orders)) ∧
  (B.amend_order id o.price q).2.asks.map (fun e => (e.1, e.2.orders)) =
    B.asks.map (fun e => (e.1, e.2.orders))

/-- Claim C2: a quantity-only amend of a live order returns `true`, sets the
order's quantity to the new value, adjusts the level's cached total by
`new − old` (in `uint64_t` arithmetic: adding back the old quantity yields
the old total plus the new quantity, mod `2 ^ 64`), and preserves every FIFO
of both sides unchanged — in particular the amended order keeps its position
at its price (time priority preserved). -/
theorem c2_quantity_amend_preserves_priority {B : OrderBook} (hB : Reachable B)
    {id h : Nat} {o : Order} {q : Nat}
    (hfind : alistFind B.order_lookup id = some h)
    (ho : B.pool.read h = o) (hne : o.quantity ≠ q) :
    C2Concl B id h o q := by
  subst ho
  obtain ⟨h1, h2, h3, ⟨L, L2, hL, hL2, horders, _, htot⟩, h5, h6⟩ :=
    amend_qty_spec hB.wf hfind hne
  refine ⟨h1, h2, h3, ⟨L, L2, hL, hL2, horders, ?_⟩, h5, h6⟩
  rw [htot]
  exact update_total_delta _ _ _

/-- Concrete instantiation of claim C2's theorem: amending order 1's quantity
from 5 to 9 on the three-order book. -/
theorem c2_witness : C2Concl wBook3 1 0 wOrder1 9 :=
  c2_quantity_amend_preserves_priority wBook3_reachable (by decide) (by decide) (by decide)

/-- The conclusion of claim C9: amending a live order to quantity zero keeps
it live — the return is `true`, the order index (hence `get_order_count`) is
unchanged, the node stays in its FIFO at its price, and the level total drops
by the old quantity (in `uint64_t` arithmetic). -/
def C9Concl (B : OrderBook) (id h : Nat) (o : Order) : Prop :=
  (B.amend_order id o.price 0).1 = true ∧
  (B.amend_order id o.price 0).2.order_lookup = B.order_lookup ∧
  (B.amend_order id o.price 0).2.get_order_count = B.get_order_count ∧
  alistFind (B.amend_order id o.price 0).2.order_lookup id = some h ∧
  (∃ L L2, mapFind (B.sideFor o.is_buy) o.price = some L ∧
     mapFind ((B.amend_order id o.price 0).2.sideFor o.is_buy) o.price = some L2 ∧
     L2.orders = L.orders ∧ h ∈ L2.orders ∧
     (L2.total_quantity + o.quantity) % U64MOD = L.total_quantity)

/-- Claim C9: amending a live order's quantity to zero is not a cancel. The
call returns `true` and leaves the order live: it stays in the order index
(`order_count` unchanged) and in its FIFO at its price; only the level's
cached total drops by the old quantity. -/
theorem c9_zero_quantity_amend_not_cancel {B : OrderBook} (hB : Reachable B)
    {id h : Nat} {o : Order}
    (hfind : alistFind B.order_lookup id = some h)
    (ho : B.pool.read h = o) (hne : o.quantity ≠ 0) :
    C9Concl B id h o := by
  subst ho
  obtain ⟨h1, _, h3, ⟨L, L2, hL, hL2, horders, hmem, htot⟩, _, _⟩ :=
    amend_qty_spec hB.wf hfind hne
  refine ⟨h1, h3, ?_, ?_, ⟨L, L2, hL, hL2, horders, hmem, ?_⟩⟩
  · show (B.amend_order id (B.pool.read h).price 0).2.order_lookup.length = _
    rw [h3]
    rfl
  · rw [h3]
    exact hfind
  · rw [htot]
    have hTlt : L.total_quantity < U64MOD := by
      have hLmem := mapFind_mem hL
      cases hbuy : (B.pool.read h).is_buy with
      | true =>
        rw [hbuy] at hLmem
        simp only [OrderBook.sideFor, if_true] at hLmem
        rw [hB.wf.bidsWF.totals _ hLmem]
        exact Nat.mod_lt _ U64MOD_pos
      | false =>
        rw [hbuy] at hLmem
        simp only [OrderBook.sideFor, Bool.false_eq_true, if_false] at hLmem
        rw [hB.wf.asksWF.totals _ hLmem]
        exact Nat.mod_lt _ U64MOD_pos
    have := update_total_delta L.total_quantity (B.pool.read h).quantity 0
    rw [this]
    rw [Nat.add_zero, Nat.mod_eq_of_lt hTlt]

/-- Concrete instantiation of claim C9's theorem: amending order 2 to
quantity zero on the three-order book. -/
theorem c9_witness : C9Concl wBook3 2 1 wOrder2 :=
  c9_zero_quantity_amend_not_cancel wBook3_reachable (by decide) (by decide) (by decide)

/-! ## Claim C3: price amend forfeits time priority -/

/-- The conclusion of claim C3: a price amend of a live order succeeds,
overwrites the node's price and quantity, keeps the id mapped to the same
handle, removes the node from the old level (erasing that level if it became
empty), and appends the node at the tail of the queue at the new price on the
same side. -/
def C3Concl (B : OrderBook) (id h : Nat) (o : Order) (np : Int) (q : Nat) : Prop :=
  (B.amend_order id np q).1 = true ∧
  alistFind (B.amend_order id np q).2.order_lookup id = some h ∧
  (B.amend_order id np q).2.pool.read h = { o with price := np, quantity := q } ∧
  (∃ L2, mapFind ((B.amend_order id np q).2.sideFor o.is_buy) np = some L2 ∧
     L2.orders ≠ [] ∧ L2.orders.getLast? = some h) ∧
  (∀ L2, mapFind ((B.amend_order id np q).2.sideFor o.is_buy) o.price = some L2 →
     h ∉ L2.orders) ∧
  (∀ L, mapFind (B.sideFor o.is_buy) o.price = some L → L.orders = [h] →
     mapFind ((B.amend_order id np q).2.sideFor o.is_buy) o.price = none)

/-- Claim C3: amending a live order to a different price returns `true`,
removes the node from its old price level (erasing the level if it becomes
empty), overwrites the node's price and quantity, appends the node at the
tail of the (possibly newly created) queue at the new price on the same side
— so it is the last node there — and leaves the id mapped to the same node
handle in the order index. -/
theorem c3_price_amend_forfeits_priority {B : OrderBook} (hB : Reachable B)
    {id h : Nat} {o : Order} {np : Int} {q : Nat}
    (hfind : alistFind B.order_lookup id = some h)
    (ho : B.pool.read h = o) (hne : o.price ≠ np) :
    C3Concl B id h o np q := by
  have hw := hB.wf
  subst ho
  have hentry : (id, h) ∈ B.order_lookup := alistFind_some_mem hfind
  obtain ⟨L, hfindL, hmemL, honceL, hcount_my, hcount_other⟩ := hw.live_node_facts hentry
  have halloc_h : (alistFind B.pool.mem h).isSome := hw.lookup_alloc (id, h) hentry
  unfold C3Concl
  rw [OrderBook.amend_order_eq_price hfind hne]
  set o2 : Order := { B.pool.read h with price := np, quantity := q } with ho2
  have hread2h : (B.pool.write h o2).read h = o2 := B.pool.read_write_self h _ halloc_h
  have herase_no_h : (L.orders.erase h).count h = 0 := by
    have := List.count_erase_self h L.orders
    omega
  cases hbuy : (B.pool.read h).is_buy with
  | true =>
    rw [hbuy] at hfindL
    simp only [OrderBook.sideFor, if_true] at hfindL
    refine ⟨rfl, hfind, hread2h, ?_, ?_, ?_⟩
    · show ∃ L2, mapFind (mapInsertWith cmpGT (fun M => M.add_order h q) np
        (sideRemove (B.pool.read h).price h (B.pool.read h).quantity B.bids)) np = some L2 ∧
          L2.orders ≠ [] ∧ L2.orders.getLast? = some h
      refine ⟨(levelAtD (sideRemove (B.pool.read h).price h (B.pool.read h).quantity B.bids)
        np).add_order h q,
        mapInsertWith_find_self lawful_cmpGT (sideRemove_sorted hw.bidsWF.sorted), ?_, ?_⟩
      · simp [PriceLevelQueue.add_order]
      · simp [PriceLevelQueue.add_order]
    · show ∀ L2, mapFind (mapInsertWith cmpGT (fun M => M.add_order h q) np
        (sideRemove (B.pool.read h).price h (B.pool.read h).quantity B.bids))
          (B.pool.read h).price = some L2 → h ∉ L2.orders
      intro L2 hfindL2 hmem2
      rw [mapInsertWith_find_ne hne] at hfindL2
      rw [sideRemove_find_self lawful_cmpGT hw.bidsWF.sorted hfindL] at hfindL2
      cases hemp : (L.orders.erase h).isEmpty
      · rw [hemp] at hfindL2
        simp only [Bool.false_eq_true, if_false] at hfindL2
        injection hfindL2 with hfindL2
        subst hfindL2
        simp only [PriceLevelQueue.remove_order] at hmem2
        exact absurd (List.count_pos_iff.mpr hmem2) (by omega)
      · rw [hemp] at hfindL2
        simp at hfindL2
    · show ∀ M, mapFind B.bids (B.pool.read h).price = some M → M.orders = [h] →
        mapFind (mapInsertWith cmpGT (fun M => M.add_order h q) np
          (sideRemove (B.pool.read h).price h (B.pool.read h).quantity B.bids))
            (B.pool.read h).price = none
      intro M hfindM hsingle
      rw [hfindL] at hfindM
      injection hfindM with hfindM
      subst hfindM
      rw [mapInsertWith_find_ne hne]
      rw [sideRemove_find_self lawful_cmpGT hw.bidsWF.sorted hfindL]
      rw [hsingle, List.erase_cons_head]
      simp
  | false =>
    rw [hbuy] at hfindL
    simp only [OrderBook.sideFor, Bool.false_eq_true, if_false] at hfindL
    refine ⟨rfl, hfind, hread2h, ?_, ?_, ?_⟩
    · show ∃ L2, mapFind (mapInsertWith cmpLT (fun M => M.add_order h q) np
        (sideRemove (B.pool.read h).price h (B.pool.read h).quantity B.asks)) np = some L2 ∧
          L2.orders ≠ [] ∧ L2.orders.getLast? = some h
      refine ⟨(levelAtD (sideRemove (B.pool.read h).price h (B.pool.read h).quantity B.asks)
        np).add_order h q,
        mapInsertWith_find_self lawful_cmpLT (sideRemove_sorted hw.asksWF.sorted), ?_, ?_⟩
      · simp [PriceLevelQueue.add_order]
      · simp [PriceLevelQueue.add_order]
    · show ∀ L2, mapFind (mapInsertWith cmpLT (fun M => M.add_order h q) np
        (sideRemove (B.pool.read h).price h (B.pool.read h).quantity B.asks))
          (B.pool.read h).price = some L2 → h ∉ L2.orders
      intro L2 hfindL2 hmem2
      rw [mapInsertWith_find_ne hne] at hfindL2
      rw [sideRemove_find_self lawful_cmpLT hw.asksWF.sorted hfindL] at hfindL2
      cases hemp : (L.orders.erase h).isEmpty
      · rw [hemp] at hfindL2
        simp only [Bool.false_eq_true, if_false] at hfindL2
        injection hfindL2 with hfindL2
        subst hfindL2
        simp only [PriceLevelQueue.remove_order] at hmem2
        exact absurd (List.count_pos_iff.mpr hmem2) (by omega)
      · rw [hemp] at hfindL2
        simp at hfindL2
    · show ∀ M, mapFind B.asks (B.pool.read h).price = some M → M.orders = [h] →
        mapFind (mapInsertWith cmpLT (fun M => M.add_order h q) np
          (sideRemove (B.pool.read h).price h (B.pool.read h).quantity B.asks))
            (B.pool.read h).price = none
      intro M hfindM hsingle
      rw [hfindL] at hfindM
      injection hfindM with hfindM
      subst hfindM
      rw [mapInsertWith_find_ne hne]
      rw [sideRemove_find_self lawful_cmpLT hw.asksWF.sorted hfindL]
      rw [hsingle, List.erase_cons_head]
      simp

/-- Concrete instantiation of claim C3's theorem: moving order 1 from price
1000 to price 995 on the three-order book. -/
theorem c3_witness : C3Concl wBook3 1 0 wOrder1 995 6 :=
  c3_price_amend_forfeits_priority wBook3_reachable (by decide) (by decide) (by decide)

/-! ## Claim C4: add/cancel round-trip -/

/-- Removing a freshly appended node undoes the insertion exactly, provided
the handle was fresh, no stored level was empty, and every stored total is a
genuine `uint64_t` value. -/
theorem sideRemove_insert_roundtrip {cmp : Int → Int → Bool} {p : Int} {h q : Nat}
    {side : List (Int × PriceLevelQueue)}
    (hfresh : h ∉ sideHandles side)
    (hne : ∀ e ∈ side, e.2.orders ≠ [])
    (hlt : ∀ e ∈ side, e.2.total_quantity < U64MOD) :
    sideRemove p h q (mapInsertWith cmp (fun L => L.add_order h q) p side) = side := by
  induction side with
  | nil =>
    simp [mapInsertWith, sideRemove, PriceLevelQueue.add_order, PriceLevelQueue.emptyQ,
      PriceLevelQueue.remove_order, List.erase_cons_head]
  | cons a rest ih =>
    obtain ⟨k, L⟩ := a
    have hfresh_hd : h ∉ L.orders := by
      intro hmem
      exact hfresh (mem_sideHandles (List.mem_cons_self _ _) hmem)
    have hfresh_tl : h ∉ sideHandles rest := by
      intro hmem
      apply hfresh
      unfold sideHandles at hmem ⊢
      simp only [List.map_cons, List.flatten_cons, List.mem_append]
      exact Or.inr hmem
    by_cases h1 : cmp p k
    · simp only [mapInsertWith, h1, if_true]
      simp [sideRemove, PriceLevelQueue.add_order, PriceLevelQueue.emptyQ,
        PriceLevelQueue.remove_order, List.erase_cons_head]
    · by_cases h2 : p = k
      · subst h2
        simp only [mapInsertWith, h1, Bool.false_eq_true, if_false, if_pos rfl]
        have herase : (L.orders ++ [h]).erase h = L.orders := by
          rw [List.erase_append_right _ hfresh_hd, List.erase_cons_head, List.append_nil]
        have hLne := hne (p, L) (List.mem_cons_self _ _)
        have hLlt := hlt (p, L) (List.mem_cons_self _ _)
        have hred : (L.add_order h q).remove_order h q =
            PriceLevelQueue.mk L.orders (usub (uadd L.total_quantity q) q) := by
          simp [PriceLevelQueue.add_order, PriceLevelQueue.remove_order, herase]
        have hnotempty : L.orders.isEmpty = false := by
          simpa [List.isEmpty_iff] using hLne
        simp only [sideRemove, if_pos rfl, hred, hnotempty, Bool.false_eq_true, if_false]
        rw [usub_uadd_cancel, Nat.mod_eq_of_lt hLlt]
        simp
      · have hk : ¬k = p := fun hh => h2 hh.symm
        simp only [mapInsertWith, h1, Bool.false_eq_true, if_false, h2, if_false]
        simp only [sideRemove, hk, if_false, List.cons.injEq, true_and]
        exact ih hfresh_tl (fun e he => hne e (List.mem_cons_of_mem _ he))
          (fun e he => hlt e (List.mem_cons_of_mem _ he))

/-- The round-trip property of claim C4 (stated for the externally visible
state: both side indices and the order index; the pool is excluded exactly as
the claim's "up to pool-internal state" allows). -/
def C4Concl (B : OrderBook) (o : Order) : Prop :=
  ((B.add_order o).cancel_order o.order_id).2.bids = B.bids ∧
  ((B.add_order o).cancel_order o.order_id).2.asks = B.asks ∧
  ((B.add_order o).cancel_order o.order_id).2.order_lookup = B.order_lookup

/-- Counterexample to claim C4 as stated: on a book where an order with id 1
is already live, `add_order` of another order with id 1 is a duplicate no-op,
so the following `cancel_order 1` cancels the pre-existing order and the
state is not restored. -/
theorem c4_roundtrip_counterexample : ¬C4Concl wBook1 wOrder1 := by
  unfold C4Concl
  decide

/-- Claim C4, amended: the round-trip holds for every reachable book state
and every order whose id is not already live at the time of the `add_order`
call. Then `add_order o` followed by `cancel_order o.order_id` restores
`bids`, `asks` and the order index exactly (the pool's bump pointer and
retired slots differ, as the claim's "up to pool-internal state" allows). -/
theorem c4_roundtrip_amended {B : OrderBook} (hB : Reachable B) {o : Order}
    (hfresh : alistFind B.order_lookup o.order_id = none) : C4Concl B o := by
  have hw := hB.wf
  have hkeys : ∀ e ∈ B.order_lookup, e.1 ≠ o.order_id := alistFind_eq_none.mp hfresh
  unfold C4Concl
  rw [OrderBook.add_order_eq hfresh]
  have hfind2 : alistFind (B.order_lookup ++ [(o.order_id, B.pool.next_slot)]) o.order_id =
      some B.pool.next_slot := alistFind_append_fresh hkeys
  rw [OrderBook.cancel_order_eq hfind2]
  have hreadn : (MemoryPool.mk ((B.pool.next_slot, o) :: B.pool.mem)
      (B.pool.next_slot + 1)).read B.pool.next_slot = o := by
    simp [MemoryPool.read, alistFind]
  dsimp only
  rw [hreadn]
  have hbids_fresh : B.pool.next_slot ∉ sideHandles B.bids := fun hmem =>
    hw.fresh_not_in_all (List.mem_append.mpr (Or.inl hmem))
  have hasks_fresh : B.pool.next_slot ∉ sideHandles B.asks := fun hmem =>
    hw.fresh_not_in_all (List.mem_append.mpr (Or.inr hmem))
  have hbids_lt : ∀ e ∈ B.bids, e.2.total_quantity < U64MOD := fun e he => by
    rw [hw.bidsWF.totals e he]
    exact Nat.mod_lt _ U64MOD_pos
  have hasks_lt : ∀ e ∈ B.asks, e.2.total_quantity < U64MOD := fun e he => by
    rw [hw.asksWF.totals e he]
    exact Nat.mod_lt _ U64MOD_pos
  by_cases hb : o.is_buy
  · simp only [hb, if_true]
    refine ⟨sideRemove_insert_roundtrip hbids_fresh hw.bidsWF.nonempty hbids_lt, ?_,
      alistErase_append_fresh hkeys⟩
    trivial
  · have hb2 : o.is_buy = false := Bool.eq_false_iff.mpr hb
    simp only [hb2, Bool.false_eq_true, if_false]
    refine ⟨?_, sideRemove_insert_roundtrip hasks_fresh hw.asksWF.nonempty hasks_lt,
      alistErase_append_fresh hkeys⟩
    trivial

/-- Concrete instantiation of the amended claim C4: adding a fresh sell order
(id 9) to the three-order book and cancelling it restores the visible
state. -/
theorem c4_witness : C4Concl wBook3 ⟨9, false, 1010, 3, 0⟩ :=
  c4_roundtrip_amended wBook3_reachable (by decide)

/-! ## Claim C5: snapshot shape and order -/

theorem take_head_of_ne_zero {α : Type} (l : List α) {d : Nat} (hd : d ≠ 0) :
    (l.take d).head? = l.head? := by
  cases l with
  | nil => simp
  | cons a rest =>
    cases d with
    | zero => exact absurd rfl hd
    | succ d2 => simp

/-- The snapshot contract of claim C5: both outputs are freshly produced (so
anything previously in the caller's vectors is gone), each holds exactly
`min depth levels` entries of the form `(price, level total)`, bids strictly
descending from the highest bid, asks strictly ascending from the lowest
ask. -/
def C5Concl (B : OrderBook) (depth : Nat) : Prop :=
  (B.get_snapshot depth).1.length = min depth B.bids.length ∧
  (B.get_snapshot depth).2.length = min depth B.asks.length ∧
  (B.get_snapshot depth).1.Pairwise (fun a b => b.price < a.price) ∧
  (B.get_snapshot depth).2.Pairwise (fun a b => a.price < b.price) ∧
  (depth ≠ 0 → (B.get_snapshot depth).1.head? =
    B.bids.head?.map (fun e => PriceLevel.mk e.1 e.2.total_quantity)) ∧
  (depth ≠ 0 → (B.get_snapshot depth).2.head? =
    B.asks.head?.map (fun e => PriceLevel.mk e.1 e.2.total_quantity)) ∧
  (∀ pl ∈ (B.get_snapshot depth).1, ∃ L, mapFind B.bids pl.price = some L ∧
    pl.total_quantity = L.total_quantity) ∧
  (∀ pl ∈ (B.get_snapshot depth).2, ∃ L, mapFind B.asks pl.price = some L ∧
    pl.total_quantity = L.total_quantity)

/-- Claim C5: `get_snapshot` fills each (cleared) output with exactly
`min(depth, live levels on that side)` entries `(price, total_quantity)`,
bids strictly descending starting from the highest bid and asks strictly
ascending starting from the lowest ask. The number of live levels on a side
is the length of that side index (its levels are all non-empty on a
reachable book, by claim C1). -/
theorem c5_snapshot_shape {B : OrderBook} (hB : Reachable B) (depth : Nat) :
    C5Concl B depth := by
  have hw := hB.wf
  have hGT : ∀ a b : Int × PriceLevelQueue, cmpGT a.1 b.1 = true → b.1 < a.1 := by
    intro a b hab
    simpa [cmpGT] using hab
  have hLT : ∀ a b : Int × PriceLevelQueue, cmpLT a.1 b.1 = true → a.1 < b.1 := by
    intro a b hab
    simpa [cmpLT] using hab
  refine ⟨?_, ?_, ?_, ?_, ?_, ?_, ?_, ?_⟩
  · simp [OrderBook.get_snapshot]
  · simp [OrderBook.get_snapshot]
  · refine List.Pairwise.map _ ?_ (hw.bidsWF.sorted.sublist (List.take_sublist _ _))
    intro a b hab
    exact hGT a b hab
  · refine List.Pairwise.map _ ?_ (hw.asksWF.sorted.sublist (List.take_sublist _ _))
    intro a b hab
    exact hLT a b hab
  · intro hd
    show ((B.bids.take depth).map _).head? = _
    rw [List.head?_map, take_head_of_ne_zero _ hd]
  · intro hd
    show ((B.asks.take depth).map _).head? = _
    rw [List.head?_map, take_head_of_ne_zero _ hd]
  · intro pl hpl
    obtain ⟨e, he, hpe⟩ := List.mem_map.mp hpl
    have hmem : e ∈ B.bids := (List.take_sublist _ _).subset he
    subst hpe
    exact ⟨e.2, mapFind_eq_some_of_mem lawful_cmpGT hw.bidsWF.sorted hmem, rfl⟩
  · intro pl hpl
    obtain ⟨e, he, hpe⟩ := List.mem_map.mp hpl
    have hmem : e ∈ B.asks := (List.take_sublist _ _).subset he
    subst hpe
    exact ⟨e.2, mapFind_eq_some_of_mem lawful_cmpLT hw.asksWF.sorted hmem, rfl⟩

/-- Concrete instantiation of claim C5's theorem at depth 2. -/
theorem c5_witness : C5Concl wBook3 2 := c5_snapshot_shape wBook3_reachable 2

/-! ## Claim C6: existence return convention with atomic failure -/

/-- Claim C6: for every book state and id, `cancel_order` and `amend_order`
return `true` iff an order with that id is live (present in the order index)
at call time, and whenever either returns `false` the entire book state —
order index, bids, asks and pool included — is unchanged. -/
theorem c6_existence_return_convention (B : OrderBook) (order_id : Nat) (np : Int) (nq : Nat) :
    ((B.cancel_order order_id).1 = true ↔ (alistFind B.order_lookup order_id).isSome = true) ∧
    ((B.cancel_order order_id).1 = false → (B.cancel_order order_id).2 = B) ∧
    ((B.amend_order order_id np nq).1 = true ↔
      (alistFind B.order_lookup order_id).isSome = true) ∧
    ((B.amend_order order_id np nq).1 = false → (B.amend_order order_id np nq).2 = B) := by
  cases hfind : alistFind B.order_lookup order_id with
  | none =>
    rw [OrderBook.cancel_order_none hfind, OrderBook.amend_order_none hfind]
    simp
  | some h =>
    have hcancel := OrderBook.cancel_order_eq hfind
    have hamend1 : (B.amend_order order_id np nq).1 = true := by
      unfold OrderBook.amend_order
      rw [hfind]
      by_cases h1 : (B.pool.read h).price ≠ np
      · simp [h1]
      · by_cases h2 : (B.pool.read h).quantity ≠ nq
        · by_cases h3 : (B.pool.read h).is_buy
          · cases hl : mapFind B.bids (B.pool.read h).price <;> simp [h1, h2, h3, hl]
          · cases hl : mapFind B.asks (B.pool.read h).price <;> simp [h1, h2, h3, hl]
        · simp [h1, h2]
    refine ⟨?_, ?_, ?_, ?_⟩
    · rw [hcancel]
      simp [hfind]
    · rw [hcancel]
      simp
    · rw [hamend1]
      simp [hfind]
    · rw [hamend1]
      simp

/-! ## Claim C7: duplicate add is a silent, atomic no-op -/

/-- Claim C7: for every book state and every order whose id is already in the
order index, `add_order` returns without signalling anything and leaves the
entire book state unchanged — every component, including both side indices,
every FIFO and total, the order index (hence `get_order_count`), and the
pool — whatever the duplicate's side, price and quantity. -/
theorem c7_duplicate_add_noop (B : OrderBook) (o : Order)
    (hdup : (alistFind B.order_lookup o.order_id).isSome = true) :
    B.add_order o = B :=
  OrderBook.add_order_dup hdup

/-- Concrete instantiation of claim C7's theorem: re-adding id 1 with a
different side, price and quantity leaves the one-order book unchanged. -/
theorem c7_witness : wBook1.add_order ⟨1, false, 50, 3, 9⟩ = wBook1 :=
  c7_duplicate_add_noop wBook1 ⟨1, false, 50, 3, 9⟩ (by decide)

/-! ## Claim C8: pool slot reuse (corrected) -/

/-- Counterexample to claim C8 as stated: construct a node in a fresh pool
(slot 0), destroy it, and construct again — the pool hands out the fresh
slot 1, not the destroyed slot 0, because `destroy` never records the slot
for reuse and `construct` only bump-allocates. -/
theorem c8_no_reuse_counterexample :
    (((MemoryPool.emptyP.construct wOrder1).2.destroy
        (MemoryPool.emptyP.construct wOrder1).1).construct wOrder2).1 ≠
      (MemoryPool.emptyP.construct wOrder1).1 := by
  decide

/-- Claim C8, amended: `MemoryPool::destroy` runs the node's destructor but
does not return the slot to any free pool — the source keeps no free list —
so a later `construct` always bump-allocates the fresh `next_slot` and never
hands a previously allocated (in particular, a destroyed) slot out again. -/
theorem c8_destroy_never_reused (P : MemoryPool) (h : Nat) (o : Order)
    (hlt : h < P.next_slot) :
    ((P.destroy h).construct o).1 = P.next_slot ∧
    ((P.destroy h).construct o).1 ≠ h ∧
    ((P.destroy h).construct o).2.next_slot = P.next_slot + 1 ∧
    (P.destroy h).next_slot = P.next_slot := by
  refine ⟨rfl, ?_, rfl, rfl⟩
  show P.next_slot ≠ h
  omega

/-- Concrete instantiation of the amended claim C8: destroying slot 0 of a
one-slot pool and constructing again yields slot 1, not slot 0. -/
theorem c8_witness :
    (((MemoryPool.emptyP.construct wOrder1).2.destroy 0).construct wOrder2).1 =
        (MemoryPool.emptyP.construct wOrder1).2.next_slot ∧
    (((MemoryPool.emptyP.construct wOrder1).2.destroy 0).construct wOrder2).1 ≠ 0 ∧
    (((MemoryPool.emptyP.construct wOrder1).2.destroy 0).construct wOrder2).2.next_slot =
        (MemoryPool.emptyP.construct wOrder1).2.next_slot + 1 ∧
    ((MemoryPool.emptyP.construct wOrder1).2.destroy 0).next_slot =
        (MemoryPool.emptyP.construct wOrder1).2.next_slot :=
  c8_destroy_never_reused (MemoryPool.emptyP.construct wOrder1).2 0 wOrder2 (by decide)

/-! ## Claim C10: add_order performs no input validation -/

/-- The conclusion of claim C10: a non-duplicate `add_order o` makes `o` live
— `get_order_count` grows by one, the id maps to the freshly constructed
node, the node sits in the queue at `o.price` on `o`'s side, and `o`'s
(possibly zero) quantity is added to that level's cached total (as
`uint64_t`). -/
def C10Concl (B : OrderBook) (o : Order) : Prop :=
  (B.add_order o).get_order_count = B.get_order_count + 1 ∧
  alistFind (B.add_order o).order_lookup o.order_id = some B.pool.next_slot ∧
  (∃ L2, mapFind ((B.add_order o).sideFor o.is_buy) o.price = some L2 ∧
     B.pool.next_slot ∈ L2.orders ∧
     L2.total_quantity =
       ((levelAtD (B.sideFor o.is_buy) o.price).total_quantity + o.quantity) % U64MOD)

/-- Claim C10 (implicit behaviour): `add_order` performs no input validation.
For every order whose id is not already present — including orders with
`quantity = 0` or `order_id = 0`, which violate the spec's stated input
preconditions — the order is inserted as a live order: `order_count`
increases by one and the order's (possibly zero) quantity is added to the
total of the level at its price on its side. -/
theorem c10_add_no_validation {B : OrderBook} (hB : Reachable B) {o : Order}
    (hfresh : alistFind B.order_lookup o.order_id = none) : C10Concl B o := by
  have hw := hB.wf
  have hkeys : ∀ e ∈ B.order_lookup, e.1 ≠ o.order_id := alistFind_eq_none.mp hfresh
  unfold C10Concl
  rw [OrderBook.add_order_eq hfresh]
  refine ⟨?_, ?_, ?_⟩
  · show (B.order_lookup ++ [(o.order_id, B.pool.next_slot)]).length = B.order_lookup.length + 1
    simp
  · exact alistFind_append_fresh hkeys
  · by_cases hb : o.is_buy
    · simp only [hb, if_true, OrderBook.sideFor]
      refine ⟨(levelAtD B.bids o.price).add_order B.pool.next_slot o.quantity,
        mapInsertWith_find_self lawful_cmpGT hw.bidsWF.sorted, ?_, rfl⟩
      simp [PriceLevelQueue.add_order]
    · have hb2 : o.is_buy = false := Bool.eq_false_iff.mpr hb
      simp only [hb2, Bool.false_eq_true, if_false, OrderBook.sideFor]
      refine ⟨(levelAtD B.asks o.price).add_order B.pool.next_slot o.quantity,
        mapInsertWith_find_self lawful_cmpLT hw.asksWF.sorted, ?_, rfl⟩
      simp [PriceLevelQueue.add_order]

/-- Concrete instantiation of claim C10's theorem: adding an order with both
`order_id = 0` and `quantity = 0` to the three-order book still inserts it. -/
theorem c10_witness : C10Concl wBook3 ⟨0, true, 990, 0, 0⟩ :=
  c10_add_no_validation wBook3_reachable (by decide)
